import Mathlib

/-!
# gputt: the plan cache `LRUCache` (src/include/LRUCache.h)

A shallow embedding of the class template `LRUCache<key_type, value_type>` and a
verification of its get/set behaviour.

Modelling decisions.

* `std::list<key_type> keys` is a doubly linked list whose iterators are the
  addresses of its nodes.  A node is a pair `(identity, key)`; identities are
  natural numbers handed out by a counter (`nextNode`), so a node that has been
  unlinked is never confused with a live one.  Identity `0` is the list's
  sentinel, the value of `end()` (and of `begin()` on an empty list).
* `std::unordered_map<key_type, ValueIterator> cache` is an association list
  with at most one entry per key.  The iteration order of the map is never
  observed by the code, only `find`, `insert`, `erase` and `size`.
* An operation whose behaviour the C++ standard leaves undefined (`back()` or
  `pop_back()` on an empty list, erasing `end()`, dereferencing `end()`)
  yields `none`.
* `capacity` is a `size_t`; it is only ever compared for equality with
  `cache.size()`, no arithmetic is done on it, so it is a `Nat` here.
* `cache_lock` is not modelled: the development is about one thread.
-/

namespace LRU

/-- The struct `ValueIterator` of lines 38-41: the stored value together with
an iterator into `keys`, here the identity of a list node. -/
structure ValueIterator (V : Type) where
  value : V
  it : Nat

/-- Data members of `LRUCache` (lines 43-55), and the node counter of the heap
model. -/
structure LRUCache (K V : Type) where
  capacity : Nat
  null_value : V
  keys : List (Nat × K)
  cache : List (K × ValueIterator V)
  nextNode : Nat

section ListModel

variable {K V : Type}

/-- The call `keys.back()`: the last node; undefined on an empty list. -/
def list_back : List (Nat × K) → Option (Nat × K)
  | [] => none
  | [n] => some n
  | _ :: n :: l => list_back (n :: l)

/-- The call `keys.pop_back()`: unlink the last node; undefined on an empty
list. -/
def list_pop_back : List (Nat × K) → Option (List (Nat × K))
  | [] => none
  | [_] => some []
  | m :: n :: l => (list_pop_back (n :: l)).map (fun r => m :: r)

/-- The call `keys.erase(it)`: unlink the node whose identity is `it`;
undefined when `it` is not a node of the list (in particular for `end()`). -/
def list_erase : List (Nat × K) → Nat → Option (List (Nat × K))
  | [], _ => none
  | n :: l, it => if n.1 = it then some l else (list_erase l it).map (fun r => n :: r)

/-- The call `keys.begin()`: the identity of the first node, the sentinel `0`
when the list is empty. -/
def list_begin : List (Nat × K) → Nat
  | [] => 0
  | n :: _ => n.1

variable [DecidableEq K]

/-- The call `cache.find(key)`: the entry stored under `key`, `none` for
`cache.end()`. -/
def map_find : List (K × ValueIterator V) → K → Option (ValueIterator V)
  | [], _ => none
  | e :: m, key => if e.1 = key then some e.2 else map_find m key

/-- Assignment through a map iterator (`it->second.value = ...`,
`it->second.it = ...`): the entry stored under `key` is replaced by `f` of
it. -/
def map_modify (m : List (K × ValueIterator V)) (key : K)
    (f : ValueIterator V → ValueIterator V) : List (K × ValueIterator V) :=
  m.map (fun e => if e.1 = key then (e.1, f e.2) else e)

/-- The call `cache.erase(it)` for the iterator `it` of the entry stored under
`key`. -/
def map_erase (m : List (K × ValueIterator V)) (key : K) : List (K × ValueIterator V) :=
  m.filter (fun e => !decide (e.1 = key))

/-- The call `cache.insert(boo)`: adds the pair unless the map already has an
entry under its key. -/
def map_insert (m : List (K × ValueIterator V)) (boo : K × ValueIterator V) :
    List (K × ValueIterator V) :=
  match map_find m boo.1 with
  | some _ => m
  | none => boo :: m

end ListModel

namespace LRUCache

variable {K V : Type} [DecidableEq K]

/-- The constructor (lines 61-62): both containers start empty. -/
def new (capacity : Nat) (null_value : V) : LRUCache K V :=
  { capacity := capacity, null_value := null_value, keys := [], cache := [], nextNode := 1 }

/-- The private method `touch` (lines 97-101).  The map iterator `it` is given
by the key of its entry; `none` when `it` is `end()` or when the list iterator
stored in the entry is not a node of `keys`. -/
def touch (s : LRUCache K V) (key : K) : Option (LRUCache K V) :=
  match map_find s.cache key with
  | none => none
  | some e =>
    -- keys.erase(it->second.it);
    match list_erase s.keys e.it with
    | none => none
    | some ks =>
      -- keys.push_front(it->first);
      let ks1 := (s.nextNode, key) :: ks
      -- it->second.it = keys.begin();
      some { s with
        keys := ks1
        nextNode := s.nextNode + 1
        cache := map_modify s.cache key (fun e => { e with it := list_begin ks1 }) }

/-- The method `get` (lines 64-71): the returned value and the state after the
call. -/
def get (s : LRUCache K V) (key : K) : Option (V × LRUCache K V) :=
  match map_find s.cache key with
  | none => some (s.null_value, s)
  | some _ =>
    match touch s key with
    | none => none
    | some s1 =>
      -- return it->second.value;
      match map_find s1.cache key with
      | none => none
      | some e => some (e.value, s1)

/-- Lines 82-86 of `set`: when the map is full, drop the key at the back of
the list from both containers. -/
def set_evict (s : LRUCache K V) : Option (LRUCache K V) :=
  if s.cache.length = s.capacity then
    -- key_type oldest_key = keys.back();
    match list_back s.keys with
    | none => none
    | some oldest =>
      -- keys.pop_back();
      match list_pop_back s.keys with
      | none => none
      | some ks =>
        -- cache.erase(cache.find(oldest_key));
        match map_find s.cache oldest.2 with
        | none => none
        | some _ => some { s with keys := ks, cache := map_erase s.cache oldest.2 }
  else some s

/-- The method `set` (lines 73-94). -/
def set (s : LRUCache K V) (key : K) (value : V) : Option (LRUCache K V) :=
  match map_find s.cache key with
  | some _ =>
    -- it->second.value = value; touch(it);
    touch { s with cache := map_modify s.cache key (fun e => { e with value := value }) } key
  | none =>
    match set_evict s with
    | none => none
    | some s1 =>
      -- keys.push_front(key);
      let ks1 := (s1.nextNode, key) :: s1.keys
      -- vi.value = value; vi.it = keys.begin(); cache.insert(boo);
      some { s1 with
        keys := ks1
        nextNode := s1.nextNode + 1
        cache := map_insert s1.cache (key, { value := value, it := list_begin ks1 }) }

/-- The keys of the recency list, front (most recently used) to back. -/
def keyList (s : LRUCache K V) : List K := s.keys.map Prod.snd

/-- A key is resident when `cache.find(key) != cache.end()`. -/
def resident (s : LRUCache K V) (key : K) : Prop := (map_find s.cache key).isSome = true

instance (s : LRUCache K V) (key : K) : Decidable (resident s key) := by
  unfold resident; infer_instance

/-- The value stored under a key, when it is resident. -/
def valueOf (s : LRUCache K V) (key : K) : Option V :=
  (map_find s.cache key).map (fun e => e.value)

/-- The entry count `cache.size()`. -/
def size (s : LRUCache K V) : Nat := s.cache.length

end LRUCache

/-- A call of one of the two public methods. -/
inductive Op (K V : Type) where
  | get (key : K)
  | set (key : K) (value : V)

section Runs

variable {K V : Type} [DecidableEq K]

/-- One call, keeping only the state after it. -/
def step (s : LRUCache K V) : Op K V → Option (LRUCache K V)
  | .get key => (s.get key).map Prod.snd
  | .set key value => LRUCache.set s key value

/-- A finite sequence of calls, in order; `none` as soon as one of them is
undefined. -/
def run (s : LRUCache K V) : List (Op K V) → Option (LRUCache K V)
  | [] => some s
  | op :: ops =>
    match step s op with
    | none => none
    | some s1 => run s1 ops

/-- The states reachable from a freshly constructed cache. -/
def Reachable (c : Nat) (nv : V) (s : LRUCache K V) : Prop :=
  ∃ ops : List (Op K V), run (LRUCache.new c nv) ops = some s

end Runs

/-! ## Vocabulary of the specification -/

section SpecWords

variable {K V : Type} [DecidableEq K]

/-- The value given by the most recent `set(k, v)` call of a call sequence
(calls in chronological order), `none` when the sequence has no `set` of `k`. -/
def lastSet : List (Op K V) → K → Option V
  | [], _ => none
  | op :: ops, k =>
    match lastSet ops k with
    | some v => some v
    | none =>
      match op with
      | .set j v => if j = k then some v else none
      | .get _ => none

/-- The calls `set(k1, v1), ..., set(kn, vn)` for a list of key-value pairs. -/
def setAll (kvs : List (K × V)) : List (Op K V) := kvs.map (fun p => Op.set p.1 p.2)

/-- The key used by one call in a given state: every `set(key, .)` uses its
key, a `get(key)` uses it only when it finds the key. -/
def useOf (s : LRUCache K V) : Op K V → List K
  | .set key _ => [key]
  | .get key => if s.resident key then [key] else []

/-- The uses made by a call sequence started in `s`, in chronological order. -/
def usedKeys (s : LRUCache K V) : List (Op K V) → List K
  | [] => []
  | op :: ops =>
    match step s op with
    | none => useOf s op
    | some s1 => useOf s op ++ usedKeys s1 ops

/-- The distinct keys of a chronological list of uses, ordered from the most
recently used to the least recently used: each key is kept at its last use,
and the order of time is reversed. -/
def mruOrder (uses : List K) : List K := uses.dedup.reverse

/-- In state `s` the resident key `j` is less recently used than `k`: it sits
behind `k` in the recency list. -/
def lessRecentlyUsed (s : LRUCache K V) (j k : K) : Prop :=
  j ∈ s.keyList ∧ s.keyList.indexOf k < s.keyList.indexOf j

instance (s : LRUCache K V) (j k : K) : Decidable (lessRecentlyUsed s j k) := by
  unfold lessRecentlyUsed; infer_instance

end SpecWords

/-! ## Well-formed states -/

section WellFormed

variable {K V : Type} [DecidableEq K]

/-- Well-formedness of a cache state: the list nodes are distinct and older
than the node counter, no key occurs twice in either container, every map
entry points at the list node of its own key, every list node has a map
entry, and the entry count is within the capacity. -/
structure Inv (s : LRUCache K V) : Prop where
  ids_nodup : (s.keys.map Prod.fst).Nodup
  ids_lt : ∀ n ∈ s.keys, n.1 < s.nextNode
  keys_nodup : (s.keys.map Prod.snd).Nodup
  cache_nodup : (s.cache.map Prod.fst).Nodup
  entry_node : ∀ k e, map_find s.cache k = some e → (e.it, k) ∈ s.keys
  node_entry : ∀ n ∈ s.keys, (map_find s.cache n.2).isSome = true
  size_eq : s.cache.length = s.keys.length
  size_le : s.cache.length ≤ s.capacity

end WellFormed

/-! ## The representation invariant in the words of the specification -/

section Representation

variable {K V : Type} [DecidableEq K]

/-- Dereferencing a list iterator (`*it`): the key held by the node whose
identity is `it`; undefined when `it` is not a node of the list. -/
def list_deref : List (Nat × K) → Nat → Option K
  | [], _ => none
  | n :: l, it => if n.1 = it then some n.2 else list_deref l it

/-- The representation invariant as the specification words it: no key occurs
twice in the recency list, the list and the map hold the same keys and have
the same size, and the list position stored in each map entry is the node
that holds the key of that entry. -/
def RepInv (s : LRUCache K V) : Prop :=
  s.keyList.Nodup ∧
  (∀ k, k ∈ s.keyList ↔ k ∈ s.cache.map Prod.fst) ∧
  s.keys.length = s.cache.length ∧
  (∀ p ∈ s.cache, list_deref s.keys p.2.it = some p.1)

end Representation

/-! ## The list and map primitives -/

section Primitives

variable {K V : Type}

theorem list_back_concat (l : List (Nat × K)) (x : Nat × K) :
    list_back (l ++ [x]) = some x := by
  induction l with
  | nil => rfl
  | cons a l ih =>
    cases l with
    | nil => rfl
    | cons b l => simpa [list_back] using ih

theorem list_pop_back_concat (l : List (Nat × K)) (x : Nat × K) :
    list_pop_back (l ++ [x]) = some l := by
  induction l with
  | nil => rfl
  | cons a l ih =>
    cases l with
    | nil => rfl
    | cons b l =>
      have h : list_pop_back (b :: (l ++ [x])) = some (b :: l) := by simpa using ih
      simp [list_pop_back, h]

theorem list_erase_defined (l : List (Nat × K)) (it : Nat) (h : it ∈ l.map Prod.fst) :
    ∃ r, list_erase l it = some r := by
  induction l with
  | nil => simp at h
  | cons n l ih =>
    by_cases hn : n.1 = it
    · exact ⟨l, by simp [list_erase, hn]⟩
    · have h1 : it ∈ l.map Prod.fst := by
        rcases List.mem_map.1 h with ⟨x, hx, hxe⟩
        rcases List.mem_cons.1 hx with rfl | hx
        · exact absurd hxe hn
        · exact List.mem_map.2 ⟨x, hx, hxe⟩
      obtain ⟨r, hr⟩ := ih h1
      exact ⟨n :: r, by simp [list_erase, hn, hr]⟩

theorem list_erase_eq_filter (l r : List (Nat × K)) (it : Nat)
    (hnd : (l.map Prod.fst).Nodup) (h : list_erase l it = some r) :
    r = l.filter (fun n => !decide (n.1 = it)) := by
  induction l generalizing r with
  | nil => simp [list_erase] at h
  | cons n l ih =>
    rw [List.map_cons, List.nodup_cons] at hnd
    by_cases hn : n.1 = it
    · simp [list_erase, hn] at h
      subst h
      have hall : ∀ x ∈ l, (!decide (x.1 = it)) = true := by
        intro x hx
        have : x.1 ≠ n.1 := fun e => hnd.1 (e ▸ List.mem_map.2 ⟨x, hx, rfl⟩)
        simpa [← hn] using this
      simp [List.filter_cons, hn, List.filter_eq_self.2 hall]
    · cases hr : list_erase l it with
      | none => simp [list_erase, hn, hr] at h
      | some r1 =>
        simp [list_erase, hn, hr] at h
        subst h
        simp [List.filter_cons, hn, ih r1 hnd.2 hr]

theorem list_erase_length (l r : List (Nat × K)) (it : Nat) (h : list_erase l it = some r) :
    r.length + 1 = l.length := by
  induction l generalizing r with
  | nil => simp [list_erase] at h
  | cons n l ih =>
    by_cases hn : n.1 = it
    · simp [list_erase, hn] at h
      subst h; simp
    · cases hr : list_erase l it with
      | none => simp [list_erase, hn, hr] at h
      | some r1 =>
        simp [list_erase, hn, hr] at h
        subst h
        simp [ih r1 hr]

variable [DecidableEq K]

theorem map_find_isSome_iff (m : List (K × ValueIterator V)) (k : K) :
    (map_find m k).isSome = true ↔ k ∈ m.map Prod.fst := by
  induction m with
  | nil => simp [map_find]
  | cons e m ih =>
    by_cases he : e.1 = k
    · simp [map_find, he]
    · have : ¬ k = e.1 := fun h => he h.symm
      simp [map_find, he, ih, this]

theorem map_find_eq_none_iff (m : List (K × ValueIterator V)) (k : K) :
    map_find m k = none ↔ k ∉ m.map Prod.fst := by
  rw [← map_find_isSome_iff]
  cases map_find m k <;> simp

theorem map_find_modify (m : List (K × ValueIterator V)) (k j : K)
    (f : ValueIterator V → ValueIterator V) :
    map_find (map_modify m k f) j
      = if j = k then (map_find m k).map f else map_find m j := by
  induction m with
  | nil => simp [map_find, map_modify]
  | cons e m ih =>
    unfold map_modify at ih
    by_cases hj : j = k
    · subst hj
      by_cases he : e.1 = j
      · simp [map_find, map_modify, he]
      · simpa [map_find, map_modify, he] using ih
    · by_cases he : e.1 = k
      · have : ¬ e.1 = j := fun h => hj (h ▸ he)
        simpa [map_find, map_modify, he, hj, this, Ne.symm hj] using ih
      · by_cases hej : e.1 = j
        · simp [map_find, map_modify, he, hj, hej]
        · simpa [map_find, map_modify, he, hj, hej] using ih

theorem map_modify_keys (m : List (K × ValueIterator V)) (k : K)
    (f : ValueIterator V → ValueIterator V) :
    (map_modify m k f).map Prod.fst = m.map Prod.fst := by
  induction m with
  | nil => rfl
  | cons e m ih =>
    unfold map_modify at ih ⊢
    by_cases he : e.1 = k <;> simp [he, ih]

theorem map_modify_length (m : List (K × ValueIterator V)) (k : K)
    (f : ValueIterator V → ValueIterator V) :
    (map_modify m k f).length = m.length := by
  simp [map_modify]

theorem map_find_erase (m : List (K × ValueIterator V)) (k j : K) :
    map_find (map_erase m k) j = if j = k then none else map_find m j := by
  induction m with
  | nil => simp [map_find, map_erase]
  | cons e m ih =>
    unfold map_erase at ih
    by_cases he : e.1 = k
    · by_cases hj : j = k
      · simpa [map_find, map_erase, he, hj] using ih
      · have : ¬ e.1 = j := fun h => hj (h ▸ he)
        simpa [map_find, map_erase, he, hj, this, Ne.symm hj] using ih
    · by_cases hej : e.1 = j
      · have : ¬ j = k := fun h => he (hej.trans h)
        simp [map_find, map_erase, he, hej, this]
      · simpa [map_find, map_erase, he, hej, List.filter_cons] using ih

theorem map_erase_keys (m : List (K × ValueIterator V)) (k : K) :
    (map_erase m k).map Prod.fst = (m.map Prod.fst).filter (fun j => !decide (j = k)) := by
  induction m with
  | nil => rfl
  | cons e m ih =>
    unfold map_erase at ih ⊢
    by_cases he : e.1 = k <;> simp [List.filter_cons, he, ih]

theorem map_erase_length (m : List (K × ValueIterator V)) (k : K)
    (hnd : (m.map Prod.fst).Nodup) (hk : k ∈ m.map Prod.fst) :
    (map_erase m k).length + 1 = m.length := by
  induction m with
  | nil => simp at hk
  | cons e m ih =>
    rw [List.map_cons, List.nodup_cons] at hnd
    unfold map_erase at ih ⊢
    by_cases he : e.1 = k
    · have hall : ∀ x ∈ m, (!decide (x.1 = k)) = true := by
        intro x hx
        have : x.1 ≠ e.1 := fun h => hnd.1 (h ▸ List.mem_map.2 ⟨x, hx, rfl⟩)
        simpa [← he] using this
      simp [List.filter_cons, he, List.filter_eq_self.2 hall]
    · have hk1 : k ∈ m.map Prod.fst := by
        rcases List.mem_map.1 hk with ⟨x, hx, hxe⟩
        rcases List.mem_cons.1 hx with rfl | hx
        · exact absurd hxe he
        · exact List.mem_map.2 ⟨x, hx, hxe⟩
      simp [List.filter_cons, he, ih hnd.2 hk1]

end Primitives

/-! ## The representation invariant -/

section Invariant

variable {K V : Type} [DecidableEq K]

theorem inv_new (c : Nat) (nv : V) : Inv (LRUCache.new c nv : LRUCache K V) := by
  constructor <;> simp [LRUCache.new, map_find]

theorem Inv.mem_keyList_iff {s : LRUCache K V} (h : Inv s) (k : K) :
    k ∈ s.keyList ↔ s.resident k := by
  unfold LRUCache.keyList LRUCache.resident
  constructor
  · intro hk
    obtain ⟨n, hn, rfl⟩ := List.mem_map.1 hk
    exact h.node_entry n hn
  · intro hk
    cases hf : map_find s.cache k with
    | none => simp [hf] at hk
    | some e => exact List.mem_map.2 ⟨_, h.entry_node k e hf, rfl⟩

theorem resident_iff_valueOf {s : LRUCache K V} (k : K) :
    s.resident k ↔ (s.valueOf k).isSome = true := by
  unfold LRUCache.resident LRUCache.valueOf
  cases map_find s.cache k <;> simp

theorem Inv.capacity_pos {s : LRUCache K V} (h : Inv s) {k : K} (hk : s.resident k) :
    1 ≤ s.capacity := by
  have h1 : k ∈ s.cache.map Prod.fst := (map_find_isSome_iff _ _).1 hk
  have h2 : 0 < s.cache.length := by
    cases hc : s.cache with
    | nil => simp [hc] at h1
    | cons a l => simp
  exact Nat.lt_of_lt_of_le h2 h.size_le

/-- Replacing the value of an entry keeps the state well formed. -/
theorem Inv.modify_value {s : LRUCache K V} (h : Inv s) (k : K) (v : V) :
    Inv { s with cache := map_modify s.cache k (fun e => { e with value := v }) } := by
  constructor
  · exact h.ids_nodup
  · exact h.ids_lt
  · exact h.keys_nodup
  · simpa [map_modify_keys] using h.cache_nodup
  · intro j e he
    simp only [map_find_modify] at he
    by_cases hj : j = k
    · subst hj
      cases hf : map_find s.cache j with
      | none => simp [hf] at he
      | some e0 =>
        simp [hf] at he
        subst he
        exact h.entry_node j e0 hf
    · simp [hj] at he
      exact h.entry_node j e he
  · intro n hn
    have := h.node_entry n hn
    simp only [map_find_modify]
    by_cases hj : n.2 = k
    · subst hj
      simpa using this
    · simpa [hj] using this
  · simpa [map_modify_length] using h.size_eq
  · simpa [map_modify_length] using h.size_le

/-- What `touch` does to a well-formed state when the entry exists. -/
theorem touch_spec (s : LRUCache K V) (h : Inv s) (k : K) (hk : s.resident k) :
    ∃ s1, s.touch k = some s1 ∧ Inv s1 ∧ s1.capacity = s.capacity ∧
      s1.null_value = s.null_value ∧
      s1.keyList = k :: s.keyList.filter (fun j => !decide (j = k)) ∧
      (∀ j, s1.valueOf j = s.valueOf j) ∧ s1.size = s.size := by
  unfold LRUCache.resident at hk
  cases hf : map_find s.cache k with
  | none => simp [hf] at hk
  | some e =>
  have hmem := h.entry_node k e hf
  obtain ⟨r, hr⟩ := list_erase_defined s.keys e.it (List.mem_map.2 ⟨_, hmem, rfl⟩)
  have hrf := list_erase_eq_filter _ _ _ h.ids_nodup hr
  have hrl := list_erase_length _ _ _ hr
  have hid : ∀ n ∈ s.keys, (n.1 = e.it ↔ n.2 = k) := by
    intro n hn
    constructor
    · intro h1
      have := List.inj_on_of_nodup_map h.ids_nodup hn hmem h1
      rw [this]
    · intro h1
      have := List.inj_on_of_nodup_map h.keys_nodup hn hmem h1
      rw [this]
  have hsub : ∀ n ∈ r, n ∈ s.keys := by
    intro n hn
    rw [hrf] at hn
    exact (List.mem_filter.1 hn).1
  have hkeys : r.map Prod.snd = s.keyList.filter (fun j => !decide (j = k)) := by
    unfold LRUCache.keyList
    rw [hrf, List.filter_map]
    congr 1
    apply List.filter_congr
    intro n hn
    have := hid n hn
    by_cases h1 : n.1 = e.it
    · simp [h1, this.1 h1]
    · have h2 : ¬ n.2 = k := fun h2 => h1 (this.2 h2)
      simp [h1, h2]
  refine ⟨{ s with
      keys := (s.nextNode, k) :: r
      nextNode := s.nextNode + 1
      cache := map_modify s.cache k (fun e => { e with it := s.nextNode }) },
    ?_, ?_, rfl, rfl, ?_, ?_, ?_⟩
  · simp [LRUCache.touch, hf, hr, list_begin]
  · constructor
    · simp only [List.map_cons, List.nodup_cons]
      constructor
      · intro hc
        obtain ⟨n, hn, hne⟩ := List.mem_map.1 hc
        have := h.ids_lt n (hsub n hn)
        omega
      · rw [hrf]
        exact List.Nodup.sublist ((List.filter_sublist _).map _) h.ids_nodup
    · intro n hn
      rcases List.mem_cons.1 hn with rfl | hn
      · simp
      · have := h.ids_lt n (hsub n hn)
        simp only
        omega
    · simp only [List.map_cons, List.nodup_cons, hkeys]
      constructor
      · simp [List.mem_filter]
      · exact List.Nodup.filter _ h.keys_nodup
    · simpa [map_modify_keys] using h.cache_nodup
    · intro j e1 he1
      simp only [map_find_modify] at he1
      by_cases hj : j = k
      · subst hj
        simp [hf] at he1
        subst he1
        simp
      · simp [hj] at he1
        have hm := h.entry_node j e1 he1
        apply List.mem_cons_of_mem
        rw [hrf]
        apply List.mem_filter.2
        refine ⟨hm, ?_⟩
        have : ¬ e1.it = e.it := fun h1 => hj ((hid _ hm).1 h1)
        simpa using this
    · intro n hn
      simp only [map_find_modify]
      rcases List.mem_cons.1 hn with rfl | hn
      · simp [hf]
      · have := h.node_entry n (hsub n hn)
        by_cases hj : n.2 = k
        · simp [hj, hf]
        · simpa [hj] using this
    · simp only [map_modify_length, List.length_cons, hrl]
      exact h.size_eq
    · simpa [map_modify_length] using h.size_le
  · simp [LRUCache.keyList, hkeys]
  · intro j
    unfold LRUCache.valueOf
    simp only [map_find_modify]
    by_cases hj : j = k
    · subst hj
      simp [hf]
    · simp [hj]
  · simp [LRUCache.size, map_modify_length]

theorem Inv.size_eq_length {s : LRUCache K V} (h : Inv s) : s.size = s.keyList.length := by
  simp [LRUCache.size, LRUCache.keyList, h.size_eq]

/-- A lookup that misses returns `null_value` and changes nothing. -/
theorem get_miss (s : LRUCache K V) (k : K) (hk : ¬ s.resident k) :
    s.get k = some (s.null_value, s) := by
  unfold LRUCache.resident at hk
  cases hf : map_find s.cache k with
  | none => simp [LRUCache.get, hf]
  | some e => simp [hf] at hk

/-- A lookup that hits returns the stored value and moves the key to the
front. -/
theorem get_hit (s : LRUCache K V) (h : Inv s) (k : K) (hk : s.resident k) :
    ∃ v s1, s.get k = some (v, s1) ∧ s.valueOf k = some v ∧ Inv s1 ∧
      s1.capacity = s.capacity ∧ s1.null_value = s.null_value ∧
      s1.keyList = k :: s.keyList.filter (fun j => !decide (j = k)) ∧
      (∀ j, s1.valueOf j = s.valueOf j) ∧ s1.size = s.size := by
  obtain ⟨s1, ht, hi, hc, hn, hkl, hv, hs⟩ := touch_spec s h k hk
  unfold LRUCache.resident at hk
  cases hf : map_find s.cache k with
  | none => simp [hf] at hk
  | some e =>
    have hv1 := hv k
    unfold LRUCache.valueOf at hv1
    rw [hf] at hv1
    cases hf1 : map_find s1.cache k with
    | none => simp [hf1] at hv1
    | some e1 =>
      rw [hf1] at hv1
      simp at hv1
      refine ⟨e1.value, s1, ?_, ?_, hi, hc, hn, hkl, hv, hs⟩
      · simp [LRUCache.get, hf, ht, hf1]
      · simp [LRUCache.valueOf, hf, hv1]

/-- Storing under a resident key replaces the value and moves the key to the
front. -/
theorem set_hit (s : LRUCache K V) (h : Inv s) (k : K) (v : V) (hk : s.resident k) :
    ∃ s1, LRUCache.set s k v = some s1 ∧ Inv s1 ∧
      s1.capacity = s.capacity ∧ s1.null_value = s.null_value ∧
      s1.keyList = k :: s.keyList.filter (fun j => !decide (j = k)) ∧
      (∀ j, s1.valueOf j = if j = k then some v else s.valueOf j) ∧ s1.size = s.size := by
  have hm := h.modify_value k v
  unfold LRUCache.resident at hk
  cases hf : map_find s.cache k with
  | none => simp [hf] at hk
  | some e =>
    have hkm : LRUCache.resident
        { s with cache := map_modify s.cache k (fun e => { e with value := v }) } k := by
      simp [LRUCache.resident, map_find_modify, hf]
    obtain ⟨s1, ht, hi, hc, hn, hkl, hv, hs⟩ := touch_spec _ hm k hkm
    refine ⟨s1, ?_, hi, hc, hn, hkl, ?_, ?_⟩
    · simp [LRUCache.set, hf, ht]
    · intro j
      rw [hv j]
      unfold LRUCache.valueOf
      simp only [map_find_modify]
      by_cases hj : j = k
      · subst hj; simp [hf]
      · simp [hj]
    · rw [hs]
      simp [LRUCache.size, map_modify_length]

/-- The eviction step of `set` on a well-formed state of positive capacity:
it is defined, leaves room for one more entry, and keeps all but the back key
when the cache was full. -/
theorem set_evict_spec (s : LRUCache K V) (h : Inv s) (hc : 1 ≤ s.capacity) :
    ∃ s1, s.set_evict = some s1 ∧ Inv s1 ∧ s1.cache.length < s1.capacity ∧
      s1.capacity = s.capacity ∧ s1.null_value = s.null_value ∧
      s1.keyList = s.keyList.take (s.capacity - 1) ∧
      (∀ j, map_find s1.cache j = if j ∈ s1.keyList then map_find s.cache j else none) := by
  by_cases hfull : s.cache.length = s.capacity
  · have hne : s.keys ≠ [] := by
      intro h0
      have : s.cache.length = 0 := by rw [h.size_eq, h0]; rfl
      omega
    have hdec : s.keys = s.keys.dropLast ++ [s.keys.getLast hne] :=
      (List.dropLast_append_getLast hne).symm
    generalize s.keys.dropLast = init at hdec
    generalize s.keys.getLast hne = last at hdec
    have hb : list_back s.keys = some last := by rw [hdec]; exact list_back_concat _ _
    have hp : list_pop_back s.keys = some init := by rw [hdec]; exact list_pop_back_concat _ _
    have hlast : (map_find s.cache last.2).isSome = true :=
      h.node_entry last (by rw [hdec]; simp)
    have hknd := h.keys_nodup
    rw [hdec, List.map_append, List.nodup_append] at hknd
    have hnotin : ∀ n ∈ init, n.2 ≠ last.2 := by
      intro n hn he
      exact hknd.2.2 (List.mem_map.2 ⟨n, hn, rfl⟩) (by simp [he])
    have hlen : init.length + 1 = s.capacity := by
      have := h.size_eq
      rw [hdec] at this
      simp at this
      omega
    cases hfl : map_find s.cache last.2 with
    | none => simp [hfl] at hlast
    | some el =>
    refine ⟨{ s with keys := init, cache := map_erase s.cache last.2 }, ?_, ?_, ?_, rfl, rfl,
      ?_, ?_⟩
    · simp [LRUCache.set_evict, hfull, hb, hp, hfl]
    · constructor
      · have := h.ids_nodup
        rw [hdec, List.map_append, List.nodup_append] at this
        exact this.1
      · intro n hn
        exact h.ids_lt n (by rw [hdec]; exact List.mem_append_left _ hn)
      · exact hknd.1
      · simp only [map_erase_keys]
        exact List.Nodup.filter _ h.cache_nodup
      · intro j e he
        simp only [map_find_erase] at he
        by_cases hj : j = last.2
        · simp [hj] at he
        · simp [hj] at he
          have hm := h.entry_node j e he
          rw [hdec] at hm
          rcases List.mem_append.1 hm with hm | hm
          · exact hm
          · simp at hm
            exact absurd (by rw [← hm]) hj
      · intro n hn
        simp only [map_find_erase]
        have := h.node_entry n (by rw [hdec]; exact List.mem_append_left _ hn)
        simpa [hnotin n hn] using this
      · have := map_erase_length s.cache last.2 h.cache_nodup
          ((map_find_isSome_iff _ _).1 hlast)
        simp only
        omega
      · have := map_erase_length s.cache last.2 h.cache_nodup
          ((map_find_isSome_iff _ _).1 hlast)
        simp only
        omega
    · have := map_erase_length s.cache last.2 h.cache_nodup
        ((map_find_isSome_iff _ _).1 hlast)
      simp only
      omega
    · unfold LRUCache.keyList
      simp only
      rw [hdec, List.map_append]
      have : s.capacity - 1 = (init.map Prod.snd).length := by simp; omega
      rw [this, List.take_left]
    · intro j
      simp only [LRUCache.keyList, map_find_erase]
      by_cases hj : j ∈ init.map Prod.snd
      · obtain ⟨n, hn, rfl⟩ := List.mem_map.1 hj
        simp [hnotin n hn, hj]
      · simp only [hj, if_false]
        by_cases hjl : j = last.2
        · simp [hjl]
        · simp only [hjl, if_false]
          cases hfj : map_find s.cache j with
          | none => rfl
          | some e =>
            have hm := h.entry_node j e hfj
            rw [hdec] at hm
            rcases List.mem_append.1 hm with hm | hm
            · exact absurd (List.mem_map.2 ⟨_, hm, rfl⟩) hj
            · simp at hm
              exact absurd (by rw [← hm]) hjl
  · have hlt : s.cache.length < s.capacity := Nat.lt_of_le_of_ne h.size_le hfull
    refine ⟨s, ?_, h, hlt, rfl, rfl, ?_, ?_⟩
    · simp [LRUCache.set_evict, hfull]
    · rw [List.take_of_length_le]
      have := h.size_eq_length
      unfold LRUCache.size at this
      omega
    · intro j
      by_cases hj : j ∈ s.keyList
      · simp [hj]
      · simp only [hj, if_false]
        have := (h.mem_keyList_iff j).not.1 hj
        unfold LRUCache.resident at this
        cases hfj : map_find s.cache j with
        | none => rfl
        | some e => simp [hfj] at this

/-- Storing under a key that is not resident, in a cache of positive capacity:
the key goes to the front and the list is cut back to the capacity. -/
theorem set_miss (s : LRUCache K V) (h : Inv s) (k : K) (v : V) (hk : ¬ s.resident k)
    (hc : 1 ≤ s.capacity) :
    ∃ s2, LRUCache.set s k v = some s2 ∧ Inv s2 ∧
      s2.capacity = s.capacity ∧ s2.null_value = s.null_value ∧
      s2.keyList = (k :: s.keyList).take s.capacity ∧
      (∀ j, s2.valueOf j
        = if j = k then some v else if j ∈ s2.keyList then s.valueOf j else none) := by
  obtain ⟨s1, he, hi, hlt, hcap, hnv, hkl, hfind⟩ := set_evict_spec s h hc
  have hf : map_find s.cache k = none := by
    unfold LRUCache.resident at hk
    cases hf : map_find s.cache k with
    | none => rfl
    | some e => simp [hf] at hk
  have hf1 : map_find s1.cache k = none := by
    rw [hfind k, hf]; simp
  have hk1 : k ∉ s1.keyList := by
    rw [hi.mem_keyList_iff]
    simp [LRUCache.resident, hf1]
  refine ⟨{ s1 with
      keys := (s1.nextNode, k) :: s1.keys
      nextNode := s1.nextNode + 1
      cache := (k, { value := v, it := s1.nextNode }) :: s1.cache }, ?_, ?_, hcap, hnv, ?_, ?_⟩
  · simp [LRUCache.set, hf, he, map_insert, hf1, list_begin]
  · constructor
    · simp only [List.map_cons, List.nodup_cons]
      refine ⟨?_, hi.ids_nodup⟩
      intro hc1
      obtain ⟨n, hn, hne⟩ := List.mem_map.1 hc1
      have := hi.ids_lt n hn
      omega
    · intro n hn
      rcases List.mem_cons.1 hn with rfl | hn
      · simp
      · have := hi.ids_lt n hn
        simp only
        omega
    · simp only [List.map_cons, List.nodup_cons]
      exact ⟨hk1, hi.keys_nodup⟩
    · simp only [List.map_cons, List.nodup_cons]
      exact ⟨(map_find_eq_none_iff _ _).1 hf1, hi.cache_nodup⟩
    · intro j e hje
      by_cases hj : k = j
      · subst hj
        simp [map_find] at hje
        subst hje
        simp
      · simp [map_find, hj] at hje
        exact List.mem_cons_of_mem _ (hi.entry_node j e hje)
    · intro n hn
      rcases List.mem_cons.1 hn with rfl | hn
      · simp [map_find]
      · by_cases hj : k = n.2
        · simp [map_find, hj]
        · simpa [map_find, hj] using hi.node_entry n hn
    · simp [hi.size_eq]
    · simp only [List.length_cons]
      omega
  · have : s.capacity = (s.capacity - 1) + 1 := by omega
    rw [this, List.take_succ_cons]
    simp [LRUCache.keyList] at hkl ⊢
    exact hkl
  · intro j
    by_cases hj : j = k
    · subst hj
      simp [LRUCache.valueOf, map_find]
    · have hj1 : ¬ k = j := fun e => hj e.symm
      simp only [LRUCache.valueOf, map_find, hj, hj1, if_false, LRUCache.keyList,
        List.map_cons, List.mem_cons, false_or]
      rw [hfind j]
      simp only [LRUCache.keyList]
      by_cases hm : j ∈ s1.keys.map Prod.snd
      · simp [hm]
      · simp [hm]

/-- With capacity zero the first insertion reads the back of an empty list. -/
theorem set_capacity_zero (s : LRUCache K V) (h : Inv s) (k : K) (v : V)
    (hc : s.capacity = 0) : LRUCache.set s k v = none := by
  have h0 : s.cache.length = 0 := by have := h.size_le; omega
  have hk0 : s.keys.length = 0 := by rw [← h.size_eq]; exact h0
  have hcache : s.cache = [] := List.length_eq_zero.1 h0
  have hkeys : s.keys = [] := List.length_eq_zero.1 hk0
  simp [LRUCache.set, LRUCache.set_evict, hcache, hkeys, map_find, hc, list_back]

/-- Every defined `set` keeps the state well formed and the two constants
fixed. -/
theorem set_inv (s s1 : LRUCache K V) (h : Inv s) (k : K) (v : V)
    (hs : LRUCache.set s k v = some s1) :
    Inv s1 ∧ s1.capacity = s.capacity ∧ s1.null_value = s.null_value := by
  by_cases hk : s.resident k
  · obtain ⟨s2, h2, hi, hc, hn, -⟩ := set_hit s h k v hk
    rw [hs] at h2
    cases h2
    exact ⟨hi, hc, hn⟩
  · by_cases hc : 1 ≤ s.capacity
    · obtain ⟨s2, h2, hi, hc, hn, -⟩ := set_miss s h k v hk hc
      rw [hs] at h2
      cases h2
      exact ⟨hi, hc, hn⟩
    · rw [set_capacity_zero s h k v (by omega)] at hs
      cases hs

/-- Every `get` on a well-formed state is defined, keeps the state well formed
and the two constants fixed. -/
theorem get_inv (s : LRUCache K V) (h : Inv s) (k : K) :
    ∃ v s1, s.get k = some (v, s1) ∧ Inv s1 ∧ s1.capacity = s.capacity ∧
      s1.null_value = s.null_value := by
  by_cases hk : s.resident k
  · obtain ⟨v, s1, h1, -, hi, hc, hn, -⟩ := get_hit s h k hk
    exact ⟨v, s1, h1, hi, hc, hn⟩
  · exact ⟨_, _, get_miss s k hk, h, rfl, rfl⟩

theorem set_defined (s : LRUCache K V) (h : Inv s) (k : K) (v : V) (hc : 1 ≤ s.capacity) :
    ∃ s1, LRUCache.set s k v = some s1 := by
  by_cases hk : s.resident k
  · obtain ⟨s2, h2, -⟩ := set_hit s h k v hk
    exact ⟨s2, h2⟩
  · obtain ⟨s2, h2, -⟩ := set_miss s h k v hk hc
    exact ⟨s2, h2⟩

theorem step_inv (s s1 : LRUCache K V) (h : Inv s) (op : Op K V) (hs : step s op = some s1) :
    Inv s1 ∧ s1.capacity = s.capacity ∧ s1.null_value = s.null_value := by
  cases op with
  | get k =>
    obtain ⟨v, s2, h2, hi, hc, hn⟩ := get_inv s h k
    simp [step, h2] at hs
    subst hs
    exact ⟨hi, hc, hn⟩
  | set k v => exact set_inv s s1 h k v hs

theorem step_defined (s : LRUCache K V) (h : Inv s) (op : Op K V) (hc : 1 ≤ s.capacity) :
    ∃ s1, step s op = some s1 := by
  cases op with
  | get k =>
    obtain ⟨v, s2, h2, -⟩ := get_inv s h k
    exact ⟨s2, by simp [step, h2]⟩
  | set k v => exact set_defined s h k v hc

theorem run_inv (ops : List (Op K V)) (s s1 : LRUCache K V) (h : Inv s)
    (hr : run s ops = some s1) :
    Inv s1 ∧ s1.capacity = s.capacity ∧ s1.null_value = s.null_value := by
  induction ops generalizing s with
  | nil =>
    simp [run] at hr
    subst hr
    exact ⟨h, rfl, rfl⟩
  | cons op ops ih =>
    cases hst : step s op with
    | none => simp [run, hst] at hr
    | some s2 =>
      simp [run, hst] at hr
      obtain ⟨hi, hc, hn⟩ := step_inv s s2 h op hst
      obtain ⟨hi1, hc1, hn1⟩ := ih s2 hi hr
      exact ⟨hi1, hc1.trans hc, hn1.trans hn⟩

theorem run_defined (ops : List (Op K V)) (s : LRUCache K V) (h : Inv s)
    (hc : 1 ≤ s.capacity) : ∃ s1, run s ops = some s1 := by
  induction ops generalizing s with
  | nil => exact ⟨s, rfl⟩
  | cons op ops ih =>
    obtain ⟨s2, h2⟩ := step_defined s h op hc
    obtain ⟨hi, hc2, -⟩ := step_inv s s2 h op h2
    obtain ⟨s3, h3⟩ := ih s2 hi (by omega)
    exact ⟨s3, by simp [run, h2, h3]⟩

theorem run_append (ops1 ops2 : List (Op K V)) (s : LRUCache K V) :
    run s (ops1 ++ ops2) = (run s ops1).bind (fun s1 => run s1 ops2) := by
  induction ops1 generalizing s with
  | nil => simp [run]
  | cons op ops ih =>
    cases hst : step s op with
    | none => simp [run, hst]
    | some s2 => simp [run, hst, ih]

/-- Reachable states are well formed and carry the constructor arguments. -/
theorem reachable_inv {c : Nat} {nv : V} {s : LRUCache K V} (h : Reachable c nv s) :
    Inv s ∧ s.capacity = c ∧ s.null_value = nv := by
  obtain ⟨ops, hr⟩ := h
  exact run_inv ops _ s (inv_new c nv) hr

theorem Inv.valueOf_eq_none {s : LRUCache K V} (h : Inv s) {j : K} (hj : j ∉ s.keyList) :
    s.valueOf j = none := by
  have h1 := (h.mem_keyList_iff j).not.1 hj
  rw [resident_iff_valueOf] at h1
  cases hv : s.valueOf j with
  | none => rfl
  | some w => simp [hv] at h1

theorem reachable_new (c : Nat) (nv : V) : Reachable c nv (LRUCache.new c nv : LRUCache K V) :=
  ⟨[], rfl⟩

end Invariant

/-! ## Stored values and the history of calls -/

section History

variable {K V : Type} [DecidableEq K]

theorem run_concat (ops : List (Op K V)) (op : Op K V) (s : LRUCache K V) :
    run s (ops ++ [op]) = (run s ops).bind (fun s1 => step s1 op) := by
  rw [run_append]
  congr 1
  funext s1
  cases hst : step s1 op <;> simp [run, hst]

theorem lastSet_concat (ops : List (Op K V)) (op : Op K V) (k : K) :
    lastSet (ops ++ [op]) k =
      match op with
      | .set j v => if j = k then some v else lastSet ops k
      | .get _ => lastSet ops k := by
  induction ops with
  | nil =>
    cases op with
    | get j => simp [lastSet]
    | set j v => simp [lastSet]
  | cons o ops ih =>
    cases op with
    | get j =>
      have e : (o :: ops) ++ [Op.get j] = o :: (ops ++ [Op.get j]) := rfl
      rw [e]
      simp only [lastSet] at ih ⊢
      rw [ih]
    | set j v =>
      have e : (o :: ops) ++ [Op.set j v] = o :: (ops ++ [Op.set j v]) := rfl
      rw [e]
      simp only [lastSet] at ih ⊢
      rw [ih]
      by_cases hj : j = k
      · simp [hj]
      · simp [hj]

theorem lastSet_mem (ops : List (Op K V)) (k : K) (v : V) (h : lastSet ops k = some v) :
    Op.set k v ∈ ops := by
  induction ops with
  | nil => simp [lastSet] at h
  | cons o ops ih =>
    simp only [lastSet] at h
    cases hl : lastSet ops k with
    | some w =>
      rw [hl] at h
      simp at h
      subst h
      exact List.mem_cons_of_mem _ (ih hl)
    | none =>
      rw [hl] at h
      cases o with
      | get j => simp at h
      | set j w =>
        by_cases hj : j = k
        · simp [hj] at h
          subst h; subst hj
          exact List.mem_cons_self _ _
        · simp [hj] at h

/-- A stored value after `set(k, v)` is either `v` under `k` or a value that
was stored before under another key. -/
theorem set_valueOf_cases (s s1 : LRUCache K V) (h : Inv s) (k : K) (v : V)
    (hs : LRUCache.set s k v = some s1) (j : K) (w : V) (hw : s1.valueOf j = some w) :
    (j = k ∧ w = v) ∨ (j ≠ k ∧ s.valueOf j = some w) := by
  by_cases hk : s.resident k
  · obtain ⟨s2, h2, -, -, -, -, hv, -⟩ := set_hit s h k v hk
    rw [hs] at h2
    cases h2
    rw [hv j] at hw
    by_cases hj : j = k
    · simp [hj] at hw
      exact Or.inl ⟨hj, hw.symm⟩
    · simp [hj] at hw
      exact Or.inr ⟨hj, hw⟩
  · by_cases hc : 1 ≤ s.capacity
    · obtain ⟨s2, h2, -, -, -, -, hv⟩ := set_miss s h k v hk hc
      rw [hs] at h2
      cases h2
      rw [hv j] at hw
      by_cases hj : j = k
      · simp [hj] at hw
        exact Or.inl ⟨hj, hw.symm⟩
      · by_cases hm : j ∈ s1.keyList
        · simp [hj, hm] at hw
          exact Or.inr ⟨hj, hw⟩
        · simp [hj, hm] at hw
    · rw [set_capacity_zero s h k v (by omega)] at hs
      cases hs

/-- A lookup does not change any stored value. -/
theorem get_valueOf (s s1 : LRUCache K V) (h : Inv s) (k : K) (r : V)
    (hg : s.get k = some (r, s1)) (j : K) : s1.valueOf j = s.valueOf j := by
  by_cases hk : s.resident k
  · obtain ⟨v, s2, h2, -, -, -, -, -, hv, -⟩ := get_hit s h k hk
    rw [hg] at h2
    cases h2
    exact hv j
  · rw [get_miss s k hk] at hg
    cases hg
    rfl

/-- Every stored value is the one given by the most recent `set` of its
key. -/
theorem valueOf_lastSet (c : Nat) (nv : V) (ops : List (Op K V)) :
    ∀ (s : LRUCache K V), run (LRUCache.new c nv) ops = some s →
      ∀ k v, s.valueOf k = some v → lastSet ops k = some v := by
  induction ops using List.reverseRecOn with
  | nil =>
    intro s hr k v hv
    simp [run] at hr
    subst hr
    simp [LRUCache.valueOf, LRUCache.new, map_find] at hv
  | append_singleton ops op ih =>
    intro s hr k v hv
    rw [run_concat] at hr
    cases hr0 : run (LRUCache.new c nv) ops with
    | none => simp [hr0] at hr
    | some s0 =>
      rw [hr0] at hr
      simp only [Option.some_bind] at hr
      have hi0 := (run_inv ops _ s0 (inv_new c nv) hr0).1
      rw [lastSet_concat]
      cases op with
      | get j =>
        simp only [step] at hr
        cases hg : s0.get j with
        | none => simp [hg] at hr
        | some res =>
          obtain ⟨r, s2⟩ := res
          simp [hg] at hr
          subst hr
          rw [get_valueOf s0 s2 hi0 j r hg k] at hv
          exact ih s0 hr0 k v hv
      | set j w =>
        simp only [step] at hr
        rcases set_valueOf_cases s0 s hi0 j w hr k v hv with ⟨h1, h2⟩ | ⟨h1, h2⟩
        · simp [h1, h2]
        · have : ¬ j = k := fun e => h1 e.symm
          simp only [this, if_false]
          exact ih s0 hr0 k v h2

end History

/-! ## Inserting a run of new keys -/

section Insertions

variable {K V : Type} [DecidableEq K]

theorem take_append_take {α : Type} (A B : List α) (c : Nat) :
    (A ++ B.take c).take c = (A ++ B).take c := by
  rw [List.take_append_eq_append_take, List.take_append_eq_append_take, List.take_take]
  congr 2
  omega

theorem set_valueOf_self (s s1 : LRUCache K V) (h : Inv s) (k : K) (v : V)
    (hs : LRUCache.set s k v = some s1) : s1.valueOf k = some v := by
  by_cases hk : s.resident k
  · obtain ⟨s2, h2, -, -, -, -, hv, -⟩ := set_hit s h k v hk
    rw [hs] at h2
    cases h2
    simp [hv k]
  · by_cases hc : 1 ≤ s.capacity
    · obtain ⟨s2, h2, -, -, -, -, hv⟩ := set_miss s h k v hk hc
      rw [hs] at h2
      cases h2
      simp [hv k]
    · rw [set_capacity_zero s h k v (by omega)] at hs
      cases hs

/-- Inserting pairwise distinct keys that are not resident, one after the
other: they pile up at the front, newest first, and the list is cut back to
the capacity; a key that stays keeps its value. -/
theorem run_setAll_fresh (kvs : List (K × V)) :
    ∀ (s : LRUCache K V), Inv s → 1 ≤ s.capacity → (kvs.map Prod.fst).Nodup →
      (∀ p ∈ kvs, ¬ s.resident p.1) →
      ∃ s1, run s (setAll kvs) = some s1 ∧ Inv s1 ∧ s1.capacity = s.capacity ∧
        s1.null_value = s.null_value ∧
        s1.keyList = ((kvs.map Prod.fst).reverse ++ s.keyList).take s.capacity ∧
        (∀ j, j ∈ s1.keyList → j ∉ kvs.map Prod.fst → s1.valueOf j = s.valueOf j) := by
  induction kvs with
  | nil =>
    intro s h hc _ _
    refine ⟨s, rfl, h, rfl, rfl, ?_, fun _ _ _ => rfl⟩
    simp only [List.map_nil, List.reverse_nil, List.nil_append]
    rw [List.take_of_length_le]
    have := h.size_eq_length
    have := h.size_le
    unfold LRUCache.size at *
    omega
  | cons p kvs ih =>
    intro s h hc hnd hfresh
    rw [List.map_cons, List.nodup_cons] at hnd
    have hp : ¬ s.resident p.1 := hfresh p (List.mem_cons_self _ _)
    obtain ⟨s1, h1, hi1, hc1, hn1, hkl1, hv1⟩ := set_miss s h p.1 p.2 hp hc
    have hfresh1 : ∀ q ∈ kvs, ¬ s1.resident q.1 := by
      intro q hq hres
      rw [← hi1.mem_keyList_iff, hkl1] at hres
      have hm := List.mem_of_mem_take hres
      rcases List.mem_cons.1 hm with e | hm
      · exact hnd.1 (e ▸ List.mem_map.2 ⟨q, hq, rfl⟩)
      · exact hfresh q (List.mem_cons_of_mem _ hq) ((h.mem_keyList_iff _).1 hm)
    obtain ⟨s2, h2, hi2, hc2, hn2, hkl2, hv2⟩ := ih s1 hi1 (by omega) hnd.2 hfresh1
    have hkl : s2.keyList
        = (((p :: kvs).map Prod.fst).reverse ++ s.keyList).take s.capacity := by
      rw [hkl2, hkl1, hc1, take_append_take]
      simp
    refine ⟨s2, ?_, hi2, hc2.trans hc1, hn2.trans hn1, hkl, ?_⟩
    · simp only [setAll, List.map_cons, run, step, h1]
      exact h2
    · intro j hj hnot
      have hjp : j ≠ p.1 := fun e => hnot (by simp [e])
      have hjk : j ∉ kvs.map Prod.fst := fun hm => hnot (by
        rw [List.map_cons]; exact List.mem_cons_of_mem _ hm)
      rw [hv2 j hj hjk, hv1 j]
      simp only [hjp, if_false]
      have hj1 : j ∈ s1.keyList := by
        rw [hkl2] at hj
        have hm := List.mem_of_mem_take hj
        rcases List.mem_append.1 hm with hm | hm
        · exact absurd (List.mem_reverse.1 hm) hjk
        · exact hm
      simp [hj1]

/-- After a key has been brought to the front, the insertion of at most
`capacity - 1` new keys does not remove it or change its value; with exactly
`capacity - 1` new keys it is the only old key left. -/
theorem run_setAll_after_front (kvs : List (K × V)) (t : LRUCache K V) (k : K) (rest : List K)
    (h : Inv t) (hc : 1 ≤ t.capacity) (hfront : t.keyList = k :: rest)
    (hlen : kvs.length ≤ t.capacity - 1) (hnd : (kvs.map Prod.fst).Nodup)
    (hfresh : ∀ p ∈ kvs, ¬ t.resident p.1) :
    ∃ s2, run t (setAll kvs) = some s2 ∧ Inv s2 ∧ s2.resident k ∧
      s2.valueOf k = t.valueOf k ∧
      (kvs.length = t.capacity - 1 → s2.keyList = (kvs.map Prod.fst).reverse ++ [k]) := by
  obtain ⟨s2, h2, hi2, -, -, hkl, hv⟩ := run_setAll_fresh kvs t h hc hnd hfresh
  have hkt : t.resident k := by
    rw [← h.mem_keyList_iff, hfront]; simp
  have hknot : k ∉ kvs.map Prod.fst := by
    intro hm
    obtain ⟨p, hp, rfl⟩ := List.mem_map.1 hm
    exact hfresh p hp hkt
  have hsplit : (kvs.map Prod.fst).reverse ++ t.keyList
      = ((kvs.map Prod.fst).reverse ++ [k]) ++ rest := by
    rw [hfront]; simp
  have hle : ((kvs.map Prod.fst).reverse ++ [k]).length ≤ t.capacity := by
    simp; omega
  have hmem : k ∈ s2.keyList := by
    rw [hkl, hsplit, List.take_append_eq_append_take, List.take_of_length_le hle]
    simp
  refine ⟨s2, h2, hi2, (hi2.mem_keyList_iff k).1 hmem, hv k hmem hknot, ?_⟩
  intro heq
  have hl : ((kvs.map Prod.fst).reverse ++ [k]).length = t.capacity := by
    simp; omega
  rw [hkl, hsplit, ← hl, List.take_left]

end Insertions

/-! ## The recency list and the order of use -/

section Recency

variable {K V : Type} [DecidableEq K]

theorem take_filter_of_not_mem (k : K) (l : List K) :
    ∀ n, k ∉ l.take n → (l.filter (fun j => !decide (j = k))).take n = l.take n := by
  induction l with
  | nil => intro n _; simp
  | cons a l ih =>
    intro n hk
    cases n with
    | zero => simp
    | succ n =>
      rw [List.take_succ_cons, List.mem_cons, not_or] at hk
      have ha : ¬ a = k := fun e => hk.1 e.symm
      simp [List.filter_cons, ha, ih n hk.2]

theorem take_filter_of_mem (k : K) (l : List K) :
    ∀ n, l.Nodup → k ∈ l.take (n + 1) →
      (l.filter (fun j => !decide (j = k))).take n
        = (l.take (n + 1)).filter (fun j => !decide (j = k)) := by
  induction l with
  | nil => intro n _ hk; simp at hk
  | cons a l ih =>
    intro n hnd hk
    rw [List.nodup_cons] at hnd
    rw [List.take_succ_cons] at hk ⊢
    by_cases ha : a = k
    · subst ha
      have h1 : l.filter (fun j => !decide (j = a)) = l := by
        apply List.filter_eq_self.2
        intro x hx
        have : ¬ x = a := fun e => hnd.1 (e ▸ hx)
        simp [this]
      have h2 : (l.take n).filter (fun j => !decide (j = a)) = l.take n := by
        apply List.filter_eq_self.2
        intro x hx
        have : ¬ x = a := fun e => hnd.1 (e ▸ List.mem_of_mem_take hx)
        simp [this]
      simp [List.filter_cons, h1, h2]
    · have hk1 : k ∈ l.take n := by
        rcases List.mem_cons.1 hk with e | hm
        · exact absurd e.symm ha
        · exact hm
      cases n with
      | zero => simp at hk1
      | succ m =>
        simp [List.filter_cons, ha, ih m hnd.2 hk1]

theorem dedup_concat (u : List K) (k : K) :
    (u ++ [k]).dedup = u.dedup.filter (fun j => !decide (j = k)) ++ [k] := by
  induction u with
  | nil => simp
  | cons a u ih =>
    rw [List.cons_append]
    by_cases hak : a = k
    · subst hak
      rw [List.dedup_cons_of_mem (by simp), ih]
      by_cases hau : a ∈ u
      · rw [List.dedup_cons_of_mem hau]
      · rw [List.dedup_cons_of_not_mem hau]
        simp [List.filter_cons]
    · by_cases hau : a ∈ u
      · rw [List.dedup_cons_of_mem (by simp [hau]), List.dedup_cons_of_mem hau, ih]
      · rw [List.dedup_cons_of_not_mem (by simp [hau, hak]), List.dedup_cons_of_not_mem hau, ih]
        simp [List.filter_cons, hak]

theorem mruOrder_concat (u : List K) (k : K) :
    mruOrder (u ++ [k]) = k :: (mruOrder u).filter (fun j => !decide (j = k)) := by
  unfold mruOrder
  rw [dedup_concat, List.reverse_append, List.filter_reverse]
  rfl

theorem mruOrder_nodup (u : List K) : (mruOrder u).Nodup := by
  unfold mruOrder
  exact List.nodup_reverse.2 (List.nodup_dedup u)

theorem usedKeys_concat (ops : List (Op K V)) (op : Op K V) :
    ∀ s : LRUCache K V, usedKeys s (ops ++ [op]) =
      usedKeys s ops ++
        (match run s ops with
         | some s1 => useOf s1 op
         | none => []) := by
  induction ops with
  | nil =>
    intro s
    simp only [List.nil_append, usedKeys, run]
    cases step s op <;> simp
  | cons o ops ih =>
    intro s
    have e : (o :: ops) ++ [op] = o :: (ops ++ [op]) := rfl
    rw [e]
    simp only [usedKeys, run]
    cases hst : step s o with
    | none => simp
    | some s1 => simp [ih s1]

/-- The recency list is the front of the keys in order of most recent use. -/
theorem keyList_eq_take_mruOrder (c : Nat) (nv : V) (ops : List (Op K V)) :
    ∀ s : LRUCache K V, run (LRUCache.new c nv) ops = some s →
      s.keyList = (mruOrder (usedKeys (LRUCache.new c nv) ops)).take c := by
  induction ops using List.reverseRecOn with
  | nil =>
    intro s hr
    simp [run] at hr
    subst hr
    simp [usedKeys, mruOrder, LRUCache.keyList, LRUCache.new]
  | append_singleton ops op ih =>
    intro s hr
    rw [run_concat] at hr
    rw [usedKeys_concat]
    cases hr0 : run (LRUCache.new c nv) ops with
    | none => simp [hr0] at hr
    | some s0 =>
      rw [hr0] at hr
      simp only [Option.some_bind] at hr
      obtain ⟨hi0, hc0, -⟩ := run_inv ops _ s0 (inv_new c nv) hr0
      have hcap : s0.capacity = c := hc0
      have hkl0 := ih s0 hr0
      have hnd := mruOrder_nodup (usedKeys (LRUCache.new c nv : LRUCache K V) ops)
      generalize hM : mruOrder (usedKeys (LRUCache.new c nv : LRUCache K V) ops) = M at hkl0 hnd
      simp only
      have hit : ∀ k : K, s0.resident k →
          k :: s0.keyList.filter (fun j => !decide (j = k))
            = (k :: M.filter (fun j => !decide (j = k))).take c := by
        intro k hk
        have hc1 : 1 ≤ c := hcap ▸ hi0.capacity_pos hk
        obtain ⟨n, rfl⟩ : ∃ n, c = n + 1 := ⟨c - 1, by omega⟩
        have hm : k ∈ M.take (n + 1) := by
          rw [← hkl0]; exact (hi0.mem_keyList_iff k).2 hk
        rw [List.take_succ_cons, take_filter_of_mem k M n hnd hm, hkl0]
      have miss : ∀ k : K, ¬ s0.resident k → 1 ≤ c →
          (k :: s0.keyList).take c = (k :: M.filter (fun j => !decide (j = k))).take c := by
        intro k hk hc1
        obtain ⟨n, rfl⟩ : ∃ n, c = n + 1 := ⟨c - 1, by omega⟩
        have hm : k ∉ M.take (n + 1) := by
          rw [← hkl0]; exact (hi0.mem_keyList_iff k).not.2 hk
        have hm1 : k ∉ M.take n := by
          intro h1
          apply hm
          have : M.take n = (M.take (n + 1)).take n := by
            rw [List.take_take]; simp
          rw [this] at h1
          exact List.mem_of_mem_take h1
        rw [List.take_succ_cons, List.take_succ_cons, take_filter_of_not_mem k M n hm1, hkl0,
          List.take_take]
        simp
      cases op with
      | get k =>
        simp only [step] at hr
        by_cases hk : s0.resident k
        · obtain ⟨v, s1, hg, -, -, -, -, hkl1, -⟩ := get_hit s0 hi0 k hk
          simp [hg] at hr
          subst hr
          simp only [useOf, hk, if_true]
          rw [mruOrder_concat, hkl1, hM]
          exact hit k hk
        · rw [get_miss s0 k hk] at hr
          simp at hr
          subst hr
          simp only [useOf, hk, if_false, List.append_nil]
          rw [hM]
          exact hkl0
      | set k v =>
        simp only [step] at hr
        simp only [useOf]
        rw [mruOrder_concat, hM]
        by_cases hk : s0.resident k
        · obtain ⟨s1, h1, -, -, -, hkl1, -⟩ := set_hit s0 hi0 k v hk
          rw [hr] at h1
          cases h1
          rw [hkl1]
          exact hit k hk
        · by_cases hc1 : 1 ≤ c
          · obtain ⟨s1, h1, -, -, -, hkl1, -⟩ := set_miss s0 hi0 k v hk (by omega)
            rw [hr] at h1
            cases h1
            rw [hkl1, hcap]
            exact miss k hk hc1
          · rw [set_capacity_zero s0 hi0 k v (by omega)] at hr
            cases hr

end Recency

/-! ## Consequences of well-formedness -/

section Consequences

variable {K V : Type} [DecidableEq K]

theorem list_deref_of_mem {α : Type} (l : List (Nat × α)) (it : Nat) (k : α)
    (hnd : (l.map Prod.fst).Nodup) (hm : (it, k) ∈ l) : list_deref l it = some k := by
  induction l with
  | nil => simp at hm
  | cons n l ih =>
    rw [List.map_cons, List.nodup_cons] at hnd
    rcases List.mem_cons.1 hm with e | hm1
    · subst e
      simp [list_deref]
    · have hne : ¬ n.1 = it := by
        intro e
        apply hnd.1
        rw [e]
        exact List.mem_map.2 ⟨(it, k), hm1, rfl⟩
      simp [list_deref, hne, ih hnd.2 hm1]

theorem map_find_of_mem (m : List (K × ValueIterator V)) (p : K × ValueIterator V)
    (hnd : (m.map Prod.fst).Nodup) (hm : p ∈ m) : map_find m p.1 = some p.2 := by
  induction m with
  | nil => simp at hm
  | cons e m ih =>
    rw [List.map_cons, List.nodup_cons] at hnd
    rcases List.mem_cons.1 hm with h1 | hm1
    · subst h1
      simp [map_find]
    · have hne : ¬ e.1 = p.1 := by
        intro h1
        apply hnd.1
        rw [h1]
        exact List.mem_map.2 ⟨p, hm1, rfl⟩
      simp [map_find, hne, ih hnd.2 hm1]

/-- A well-formed state satisfies the representation invariant of the
specification. -/
theorem Inv.repInv {s : LRUCache K V} (h : Inv s) : RepInv s := by
  refine ⟨h.keys_nodup, ?_, h.size_eq.symm, ?_⟩
  · intro k
    rw [h.mem_keyList_iff]
    exact map_find_isSome_iff _ _
  · intro p hp
    have hf := map_find_of_mem s.cache p h.cache_nodup hp
    exact list_deref_of_mem s.keys p.2.it p.1 h.ids_nodup (h.entry_node p.1 p.2 hf)

/-- In a full well-formed cache of positive capacity each step of the
eviction branch is defined. -/
theorem evict_steps_defined (s : LRUCache K V) (h : Inv s) (hc : 1 ≤ s.capacity)
    (hfull : s.cache.length = s.capacity) :
    s.keys ≠ [] ∧
    ∃ oldest ks, list_back s.keys = some oldest ∧ list_pop_back s.keys = some ks ∧
      (map_find s.cache oldest.2).isSome = true := by
  have hne : s.keys ≠ [] := by
    intro h0
    have : s.cache.length = 0 := by rw [h.size_eq, h0]; rfl
    omega
  have hdec : s.keys = s.keys.dropLast ++ [s.keys.getLast hne] :=
    (List.dropLast_append_getLast hne).symm
  refine ⟨hne, s.keys.getLast hne, s.keys.dropLast, ?_, ?_, ?_⟩
  · conv_lhs => rw [hdec]
    exact list_back_concat _ _
  · conv_lhs => rw [hdec]
    exact list_pop_back_concat _ _
  · exact h.node_entry _ (List.getLast_mem hne)

end Consequences

/-! ## The claims about `get` and `set` -/

section Claims

variable {K V : Type} [DecidableEq K]

/-- C1: in every state reached from a fresh cache by a sequence of calls,
`get(k)` of a resident key returns the value given by the most recent
`set(k, v)` of that sequence, and `get(k)` of a key that is not resident
returns the `null_value` given to the constructor. -/
theorem C1_get_returns_last_set_or_null (c : Nat) (nv : V) (ops : List (Op K V))
    (s : LRUCache K V) (k : K) (hr : run (LRUCache.new c nv) ops = some s) :
    (s.resident k → ∃ v s1, lastSet ops k = some v ∧ s.get k = some (v, s1)) ∧
    (¬ s.resident k → ∃ s1, s.get k = some (nv, s1)) := by
  obtain ⟨hi, -, hn⟩ := run_inv ops _ s (inv_new c nv) hr
  constructor
  · intro hk
    obtain ⟨v, s1, hg, hv, -⟩ := get_hit s hi k hk
    exact ⟨v, s1, valueOf_lastSet c nv ops s hr k v hv, hg⟩
  · intro hk
    refine ⟨s, ?_⟩
    rw [get_miss s k hk]
    simp [LRUCache.new] at hn
    rw [hn]

/-- C1 at a concrete run: capacity 2, `set(1,10); set(2,20); set(1,11)`, then
key 1 (resident) and key 3 (not resident). -/
theorem C1_get_returns_last_set_or_null_witness :
    run (LRUCache.new 2 0) [Op.set 1 10, Op.set 2 20, Op.set 1 11]
      = some (⟨2, 0, [(3, 1), (2, 2)], [(2, ⟨20, 2⟩), (1, ⟨11, 3⟩)], 4⟩ : LRUCache Nat Nat) ∧
    (∃ v s1, lastSet [Op.set 1 10, Op.set 2 20, Op.set 1 11] 1 = some v ∧
      (⟨2, 0, [(3, 1), (2, 2)], [(2, ⟨20, 2⟩), (1, ⟨11, 3⟩)], 4⟩ : LRUCache Nat Nat).get 1
        = some (v, s1)) ∧
    (∃ s1, (⟨2, 0, [(3, 1), (2, 2)], [(2, ⟨20, 2⟩), (1, ⟨11, 3⟩)], 4⟩ : LRUCache Nat Nat).get 3
        = some (0, s1)) :=
  have hr : run (LRUCache.new 2 0) [Op.set 1 10, Op.set 2 20, Op.set 1 11]
      = some (⟨2, 0, [(3, 1), (2, 2)], [(2, ⟨20, 2⟩), (1, ⟨11, 3⟩)], 4⟩ : LRUCache Nat Nat) := rfl
  ⟨hr, (C1_get_returns_last_set_or_null 2 0 _ _ 1 hr).1 (by decide),
    (C1_get_returns_last_set_or_null 2 0 _ _ 3 hr).2 (by decide)⟩

/-- C2: in a reachable state of a cache with capacity `c >= 1`, `set(k, v)` of
a key that is not resident puts `k` at the front with value `v`.  When the
cache holds `c` entries it removes exactly the key at the back of the recency
list, keeps every other key with its value and the count stays `c`; when it
holds fewer than `c` entries nothing is removed and the count grows by one. -/
theorem C2_set_new_key_evicts_only_the_back (c : Nat) (nv : V) (s : LRUCache K V) (k : K)
    (v : V) (hc : 1 ≤ c) (hs : Reachable c nv s) (hk : ¬ s.resident k) :
    ∃ s1, LRUCache.set s k v = some s1 ∧ s1.keyList.head? = some k ∧
      s1.valueOf k = some v ∧
      (s.size = c → ∃ oldest, s.keyList.getLast? = some oldest ∧ s.resident oldest ∧
        ¬ s1.resident oldest ∧ s1.keyList = k :: s.keyList.dropLast ∧
        (∀ j, j ≠ oldest → j ≠ k → s1.valueOf j = s.valueOf j) ∧ s1.size = c) ∧
      (s.size < c → s1.keyList = k :: s.keyList ∧
        (∀ j, j ≠ k → s1.valueOf j = s.valueOf j) ∧ s1.size = s.size + 1) := by
  obtain ⟨hi, hcap, -⟩ := reachable_inv hs
  obtain ⟨s1, h1, hi1, -, -, hkl, hv⟩ := set_miss s hi k v hk (by omega)
  rw [hcap] at hkl
  have hlen := hi.size_eq_length
  have hc1 : c = (c - 1) + 1 := by omega
  have hhead : s1.keyList.head? = some k := by
    rw [hkl, hc1, List.take_succ_cons]; rfl
  refine ⟨s1, h1, hhead, by simp [hv k], ?_, ?_⟩
  · intro hfull
    have hne : s.keyList ≠ [] := by
      intro h0
      rw [h0] at hlen
      simp at hlen
      omega
    have hdec := (List.dropLast_append_getLast hne).symm
    generalize s.keyList.getLast hne = oldest at hdec
    generalize hinit : s.keyList.dropLast = init at hdec
    have hil : init.length = c - 1 := by
      have : s.keyList.length = init.length + 1 := by rw [hdec]; simp
      omega
    have hnd := hi.keys_nodup
    change s.keyList.Nodup at hnd
    rw [hdec, List.nodup_append] at hnd
    have hold : oldest ∉ init := fun hm => hnd.2.2 hm (by simp)
    have hres : s.resident oldest := by
      rw [← hi.mem_keyList_iff, hdec]; simp
    have hok : oldest ≠ k := fun e => hk (e ▸ hres)
    have hkl1 : s1.keyList = k :: init := by
      rw [hkl, hc1, List.take_succ_cons, hdec, ← hil, List.take_left]
    refine ⟨oldest, ?_, hres, ?_, hkl1, ?_, ?_⟩
    · rw [hdec]; simp
    · rw [← hi1.mem_keyList_iff, hkl1]
      simp [hok, hold]
    · intro j hjo hjk
      rw [hv j]
      simp only [hjk, if_false]
      by_cases hm : j ∈ s1.keyList
      · simp [hm]
      · simp only [hm, if_false]
        have : j ∉ s.keyList := by
          rw [hkl1] at hm
          rw [hdec]
          simp at hm ⊢
          exact ⟨hm.2, hjo⟩
        exact (hi.valueOf_eq_none this).symm
    · rw [hi1.size_eq_length, hkl1]
      simp; omega
  · intro hlt
    have hkl1 : s1.keyList = k :: s.keyList := by
      rw [hkl, List.take_of_length_le]
      simp; omega
    refine ⟨hkl1, ?_, ?_⟩
    · intro j hjk
      rw [hv j]
      simp only [hjk, if_false]
      by_cases hm : j ∈ s1.keyList
      · simp [hm]
      · simp only [hm, if_false]
        have : j ∉ s.keyList := by
          rw [hkl1] at hm
          simp at hm
          exact hm.2
        exact (hi.valueOf_eq_none this).symm
    · rw [hi1.size_eq_length, hkl1, hlen]
      simp

/-- C2 at a full cache of capacity 2 holding keys 2 and 1: `set(3, 30)`. -/
theorem C2_set_new_key_evicts_only_the_back_witness :
    (1 ≤ 2 ∧
     Reachable 2 0 (⟨2, 0, [(2, 2), (1, 1)], [(2, ⟨20, 2⟩), (1, ⟨10, 1⟩)], 3⟩ : LRUCache Nat Nat) ∧
     ¬ (⟨2, 0, [(2, 2), (1, 1)], [(2, ⟨20, 2⟩), (1, ⟨10, 1⟩)], 3⟩ : LRUCache Nat Nat).resident 3) ∧
    ∃ s1, LRUCache.set
        (⟨2, 0, [(2, 2), (1, 1)], [(2, ⟨20, 2⟩), (1, ⟨10, 1⟩)], 3⟩ : LRUCache Nat Nat) 3 30
        = some s1 ∧ s1.keyList.head? = some 3 ∧ s1.valueOf 3 = some 30 :=
  have hs : Reachable 2 0
      (⟨2, 0, [(2, 2), (1, 1)], [(2, ⟨20, 2⟩), (1, ⟨10, 1⟩)], 3⟩ : LRUCache Nat Nat) :=
    ⟨[Op.set 1 10, Op.set 2 20], rfl⟩
  ⟨⟨by decide, hs, by decide⟩,
    (C2_set_new_key_evicts_only_the_back 2 0 _ 3 30 (by decide) hs (by decide)).imp
      (fun _ h => ⟨h.1, h.2.1, h.2.2.1⟩)⟩

/-- C3: for capacity `c >= 1` and `c + 1` pairwise distinct keys, given as a
first pair, `c - 1` middle pairs and a last pair: after setting them in that
order on a fresh cache, `get` of the first key returns `null_value` and `get`
of the last key returns the last value. -/
theorem C3_first_of_capacity_plus_one_keys_is_evicted (c : Nat) (nv : V) (first last : K × V)
    (mid : List (K × V)) (hc : 1 ≤ c) (hlen : (first :: (mid ++ [last])).length = c + 1)
    (hnd : ((first :: (mid ++ [last])).map Prod.fst).Nodup) :
    ∃ s s1 s2, run (LRUCache.new c nv) (setAll (first :: (mid ++ [last]))) = some s ∧
      s.get first.1 = some (nv, s1) ∧ s.get last.1 = some (last.2, s2) := by
  have hi0 : Inv (LRUCache.new c nv : LRUCache K V) := inv_new c nv
  have hfresh : ∀ p ∈ first :: (mid ++ [last]),
      ¬ (LRUCache.new c nv : LRUCache K V).resident p.1 := by
    intro p _
    simp [LRUCache.resident, LRUCache.new, map_find]
  obtain ⟨s, hr, hi, -, hn, hkl, -⟩ :=
    run_setAll_fresh (first :: (mid ++ [last])) (LRUCache.new c nv) hi0 hc hnd hfresh
  have hcap : (LRUCache.new c nv : LRUCache K V).capacity = c := rfl
  have hnull : s.null_value = nv := hn
  have hkl1 : s.keyList = last.1 :: (mid.map Prod.fst).reverse := by
    rw [hkl, hcap]
    have e : ((first :: (mid ++ [last])).map Prod.fst).reverse
          ++ (LRUCache.new c nv : LRUCache K V).keyList
        = (last.1 :: (mid.map Prod.fst).reverse) ++ [first.1] := by
      simp [LRUCache.keyList, LRUCache.new]
    have hl : (last.1 :: (mid.map Prod.fst).reverse).length = c := by
      simp at hlen ⊢
      omega
    rw [e, ← hl, List.take_left]
  have hfirst : ¬ s.resident first.1 := by
    rw [← hi.mem_keyList_iff, hkl1]
    intro hm
    have h1 := hnd
    rw [List.map_cons, List.nodup_cons] at h1
    apply h1.1
    rcases List.mem_cons.1 hm with e | hm
    · rw [e]; simp
    · have := List.mem_reverse.1 hm
      rw [List.map_append]
      exact List.mem_append_left _ this
  have hlastres : s.resident last.1 := by
    rw [← hi.mem_keyList_iff, hkl1]; simp
  have hval : s.valueOf last.1 = some last.2 := by
    have happ : setAll (first :: (mid ++ [last]))
        = setAll (first :: mid) ++ [Op.set last.1 last.2] := by
      simp [setAll]
    rw [happ, run_concat] at hr
    cases hr0 : run (LRUCache.new c nv) (setAll (first :: mid)) with
    | none => simp [hr0] at hr
    | some s0 =>
      rw [hr0] at hr
      simp only [Option.some_bind, step] at hr
      have hinv0 := (run_inv _ _ s0 hi0 hr0).1
      exact set_valueOf_self s0 s hinv0 last.1 last.2 hr
  obtain ⟨w, s2, hg, hw, -⟩ := get_hit s hi last.1 hlastres
  rw [hval] at hw
  cases hw
  refine ⟨s, s, s2, hr, ?_, hg⟩
  rw [get_miss s first.1 hfirst, hnull]

/-- C3 at capacity 2 with the keys 1, 2, 3. -/
theorem C3_first_of_capacity_plus_one_keys_is_evicted_witness :
    (1 ≤ 2 ∧ ((1, 10) :: ([(2, 20)] ++ [(3, 30)]) : List (Nat × Nat)).length = 2 + 1 ∧
      ((((1, 10) :: ([(2, 20)] ++ [(3, 30)]) : List (Nat × Nat))).map Prod.fst).Nodup) ∧
    ∃ s s1 s2 : LRUCache Nat Nat,
      run (LRUCache.new 2 0) (setAll ((1, 10) :: ([(2, 20)] ++ [(3, 30)]))) = some s ∧
      s.get (1, 10).1 = some (0, s1) ∧ s.get (3, 30).1 = some ((3, 30).2, s2) :=
  ⟨⟨by decide, by decide, by decide⟩,
    C3_first_of_capacity_plus_one_keys_is_evicted 2 0 (1, 10) (3, 30) [(2, 20)]
      (by decide) (by decide) (by decide)⟩

/-- C4, as stated, fails: capacity 3, keys 3, 2, 1 resident (front to back),
key 2 touched by `get`, then the 3 new keys 4, 5, 6 inserted: key 2 is not
resident any more, the cache holds exactly the three new keys. -/
theorem C4_touched_key_evicted_after_capacity_insertions :
    Reachable 3 0 (⟨3, 0, [(3, 3), (2, 2), (1, 1)],
        [(3, ⟨30, 3⟩), (2, ⟨20, 2⟩), (1, ⟨10, 1⟩)], 4⟩ : LRUCache Nat Nat) ∧
    (⟨3, 0, [(3, 3), (2, 2), (1, 1)],
        [(3, ⟨30, 3⟩), (2, ⟨20, 2⟩), (1, ⟨10, 1⟩)], 4⟩ : LRUCache Nat Nat).resident 2 ∧
    lessRecentlyUsed (⟨3, 0, [(3, 3), (2, 2), (1, 1)],
        [(3, ⟨30, 3⟩), (2, ⟨20, 2⟩), (1, ⟨10, 1⟩)], 4⟩ : LRUCache Nat Nat) 1 2 ∧
    (∀ p ∈ ([(4, 40), (5, 50), (6, 60)] : List (Nat × Nat)),
      ¬ (⟨3, 0, [(3, 3), (2, 2), (1, 1)],
        [(3, ⟨30, 3⟩), (2, ⟨20, 2⟩), (1, ⟨10, 1⟩)], 4⟩ : LRUCache Nat Nat).resident p.1) ∧
    (⟨3, 0, [(3, 3), (2, 2), (1, 1)],
        [(3, ⟨30, 3⟩), (2, ⟨20, 2⟩), (1, ⟨10, 1⟩)], 4⟩ : LRUCache Nat Nat).get 2
      = some (20, ⟨3, 0, [(4, 2), (3, 3), (1, 1)],
        [(3, ⟨30, 3⟩), (2, ⟨20, 4⟩), (1, ⟨10, 1⟩)], 5⟩) ∧
    (run (⟨3, 0, [(4, 2), (3, 3), (1, 1)],
        [(3, ⟨30, 3⟩), (2, ⟨20, 4⟩), (1, ⟨10, 1⟩)], 5⟩ : LRUCache Nat Nat)
        (setAll [(4, 40), (5, 50), (6, 60)])).map
      (fun s => (s.keyList, decide (s.resident 2), decide (s.resident 1)))
      = some ([6, 5, 4], false, false) :=
  ⟨⟨[Op.set 1 10, Op.set 2 20, Op.set 3 30], rfl⟩, by decide, by decide, by decide, rfl,
    by decide⟩

/-- C4, amended: for capacity `c >= 1`, in a reachable state where `k` and a
less recently used key `j` are resident, after touching `k` (by `get(k)`, or
by `set(k, v)`) and then inserting `c - 1` further keys that are pairwise
distinct and were not resident, `k` is still resident and `j` has been
evicted. -/
theorem C4_touched_key_survives_capacity_minus_one_insertions (c : Nat) (nv : V)
    (s : LRUCache K V) (k j : K) (v : V) (news : List (K × V)) (hc : 1 ≤ c)
    (hs : Reachable c nv s) (hk : s.resident k) (hj : lessRecentlyUsed s j k)
    (hlen : news.length = c - 1) (hnd : (news.map Prod.fst).Nodup)
    (hfresh : ∀ p ∈ news, ¬ s.resident p.1) :
    (∃ r s1 s2, s.get k = some (r, s1) ∧ run s1 (setAll news) = some s2 ∧
      s2.resident k ∧ ¬ s2.resident j) ∧
    (∃ s1 s2, LRUCache.set s k v = some s1 ∧ run s1 (setAll news) = some s2 ∧
      s2.resident k ∧ ¬ s2.resident j) := by
  obtain ⟨hi, hcap, -⟩ := reachable_inv hs
  have hjk : j ≠ k := by
    intro e
    have := hj.2
    rw [e] at this
    exact Nat.lt_irrefl _ this
  have hjres : s.resident j := (hi.mem_keyList_iff j).1 hj.1
  have hjnew : j ∉ news.map Prod.fst := by
    intro hm
    obtain ⟨p, hp, rfl⟩ := List.mem_map.1 hm
    exact hfresh p hp hjres
  have key : ∀ t : LRUCache K V, Inv t → t.capacity = c →
      t.keyList = k :: s.keyList.filter (fun x => !decide (x = k)) →
      (∀ x, t.resident x ↔ s.resident x) →
      ∃ s2, run t (setAll news) = some s2 ∧ s2.resident k ∧ ¬ s2.resident j := by
    intro t hit hct hkl hres
    have hfr : ∀ p ∈ news, ¬ t.resident p.1 := fun p hp h1 => hfresh p hp ((hres _).1 h1)
    obtain ⟨s2, h2, hi2, hk2, -, hkl2⟩ :=
      run_setAll_after_front news t k _ hit (by omega) hkl (by omega) hnd hfr
    refine ⟨s2, h2, hk2, ?_⟩
    rw [← hi2.mem_keyList_iff, hkl2 (by omega)]
    simp only [List.mem_append, List.mem_reverse, List.mem_singleton, not_or]
    exact ⟨hjnew, hjk⟩
  constructor
  · obtain ⟨r, s1, hg, -, hi1, hc1, -, hkl1, hv1, -⟩ := get_hit s hi k hk
    have hres : ∀ x, s1.resident x ↔ s.resident x := by
      intro x
      rw [resident_iff_valueOf, resident_iff_valueOf, hv1 x]
    obtain ⟨s2, h2, hk2, hj2⟩ := key s1 hi1 (by omega) hkl1 hres
    exact ⟨r, s1, s2, hg, h2, hk2, hj2⟩
  · obtain ⟨s1, h1, hi1, hc1, -, hkl1, hv1, -⟩ := set_hit s hi k v hk
    have hres : ∀ x, s1.resident x ↔ s.resident x := by
      intro x
      rw [resident_iff_valueOf, resident_iff_valueOf, hv1 x]
      by_cases hx : x = k
      · subst hx
        simp only [if_true, Option.isSome_some, true_iff]
        exact (resident_iff_valueOf x).1 hk
      · simp [hx]
    obtain ⟨s2, h2, hk2, hj2⟩ := key s1 hi1 (by omega) hkl1 hres
    exact ⟨s1, s2, h1, h2, hk2, hj2⟩

/-- C4, amended, at capacity 3 with keys 3, 2, 1 resident: key 2 touched,
then the 2 new keys 4 and 5 inserted; key 1 plays the less recently used
key. -/
theorem C4_touched_key_survives_capacity_minus_one_insertions_witness :
    (1 ≤ 3 ∧
     Reachable 3 0 (⟨3, 0, [(3, 3), (2, 2), (1, 1)],
        [(3, ⟨30, 3⟩), (2, ⟨20, 2⟩), (1, ⟨10, 1⟩)], 4⟩ : LRUCache Nat Nat) ∧
     (⟨3, 0, [(3, 3), (2, 2), (1, 1)],
        [(3, ⟨30, 3⟩), (2, ⟨20, 2⟩), (1, ⟨10, 1⟩)], 4⟩ : LRUCache Nat Nat).resident 2 ∧
     lessRecentlyUsed (⟨3, 0, [(3, 3), (2, 2), (1, 1)],
        [(3, ⟨30, 3⟩), (2, ⟨20, 2⟩), (1, ⟨10, 1⟩)], 4⟩ : LRUCache Nat Nat) 1 2 ∧
     ([(4, 40), (5, 50)] : List (Nat × Nat)).length = 3 - 1 ∧
     (([(4, 40), (5, 50)] : List (Nat × Nat)).map Prod.fst).Nodup ∧
     (∀ p ∈ ([(4, 40), (5, 50)] : List (Nat × Nat)),
        ¬ (⟨3, 0, [(3, 3), (2, 2), (1, 1)],
          [(3, ⟨30, 3⟩), (2, ⟨20, 2⟩), (1, ⟨10, 1⟩)], 4⟩ : LRUCache Nat Nat).resident p.1)) ∧
    ((∃ r s1 s2, (⟨3, 0, [(3, 3), (2, 2), (1, 1)],
          [(3, ⟨30, 3⟩), (2, ⟨20, 2⟩), (1, ⟨10, 1⟩)], 4⟩ : LRUCache Nat Nat).get 2 = some (r, s1) ∧
        run s1 (setAll [(4, 40), (5, 50)]) = some s2 ∧ s2.resident 2 ∧ ¬ s2.resident 1) ∧
     (∃ s1 s2, LRUCache.set (⟨3, 0, [(3, 3), (2, 2), (1, 1)],
          [(3, ⟨30, 3⟩), (2, ⟨20, 2⟩), (1, ⟨10, 1⟩)], 4⟩ : LRUCache Nat Nat) 2 21 = some s1 ∧
        run s1 (setAll [(4, 40), (5, 50)]) = some s2 ∧ s2.resident 2 ∧ ¬ s2.resident 1)) :=
  have hs : Reachable 3 0 (⟨3, 0, [(3, 3), (2, 2), (1, 1)],
        [(3, ⟨30, 3⟩), (2, ⟨20, 2⟩), (1, ⟨10, 1⟩)], 4⟩ : LRUCache Nat Nat) :=
    ⟨[Op.set 1 10, Op.set 2 20, Op.set 3 30], rfl⟩
  ⟨⟨by decide, hs, by decide, by decide, by decide, by decide, by decide⟩,
    C4_touched_key_survives_capacity_minus_one_insertions 3 0 _ 2 1 21 [(4, 40), (5, 50)]
      (by decide) hs (by decide) (by decide) (by decide) (by decide) (by decide)⟩

/-- C5: for capacity `c >= 1`, every finite sequence of `get` and `set` calls
on a fresh cache is defined, and afterwards the recency list, front to back,
is the first `c` elements of the distinct keys ordered from most recently to
least recently used, a use being any `set(key, .)` or any `get(key)` that
found its key.  So the list has `min c (number of distinct used keys)` keys,
and the resident keys are exactly these. -/
theorem C5_recency_list_is_front_of_use_order (c : Nat) (nv : V) (ops : List (Op K V))
    (hc : 1 ≤ c) :
    ∃ s, run (LRUCache.new c nv) ops = some s ∧
      s.keyList = (mruOrder (usedKeys (LRUCache.new c nv : LRUCache K V) ops)).take c ∧
      s.keyList.length
        = min c (usedKeys (LRUCache.new c nv : LRUCache K V) ops).dedup.length ∧
      (∀ k, s.resident k ↔
        k ∈ (mruOrder (usedKeys (LRUCache.new c nv : LRUCache K V) ops)).take c) := by
  obtain ⟨s, hr⟩ := run_defined ops (LRUCache.new c nv) (inv_new c nv) hc
  obtain ⟨hi, -, -⟩ := run_inv ops _ s (inv_new c nv) hr
  have hkl := keyList_eq_take_mruOrder c nv ops s hr
  refine ⟨s, hr, hkl, ?_, ?_⟩
  · rw [hkl, List.length_take]
    simp [mruOrder]
  · intro k
    rw [← hi.mem_keyList_iff, hkl]

/-- C5 at capacity 2 for `set(1); set(2); get(1); get(9); set(3); get(2)`: the
lookups of 9 and of the evicted 2 miss, the uses are 1, 2, 1, 3, and the
recency list is `[3, 1]`. -/
theorem C5_recency_list_is_front_of_use_order_witness :
    1 ≤ 2 ∧ ∃ s : LRUCache Nat Nat,
      run (LRUCache.new 2 0)
        [Op.set 1 10, Op.set 2 20, Op.get 1, Op.get 9, Op.set 3 30, Op.get 2] = some s ∧
      s.keyList = (mruOrder (usedKeys (LRUCache.new 2 0 : LRUCache Nat Nat)
        [Op.set 1 10, Op.set 2 20, Op.get 1, Op.get 9, Op.set 3 30, Op.get 2])).take 2 ∧
      usedKeys (LRUCache.new 2 0 : LRUCache Nat Nat)
        [Op.set 1 10, Op.set 2 20, Op.get 1, Op.get 9, Op.set 3 30, Op.get 2] = [1, 2, 1, 3] ∧
      s.keyList = [3, 1] :=
  ⟨by decide,
    (C5_recency_list_is_front_of_use_order 2 0
      [Op.set 1 10, Op.set 2 20, Op.get 1, Op.get 9, Op.set 3 30, Op.get 2] (by decide)).imp
      (fun _ h => ⟨h.1, h.2.1, by decide, by rw [h.2.1]; decide⟩)⟩

/-- C6: in a reachable state, `set(k, v)` of a resident key replaces the
value of `k` by `v`, moves `k` to the front of the recency list and leaves the
other keys in their order, evicts nothing (same resident keys, same entry
count, at capacity or not), and leaves the value of every other key alone. -/
theorem C6_set_resident_key_updates_in_place (c : Nat) (nv : V) (s : LRUCache K V) (k : K)
    (v : V) (hs : Reachable c nv s) (hk : s.resident k) :
    ∃ s1, LRUCache.set s k v = some s1 ∧ s1.valueOf k = some v ∧
      s1.keyList = k :: s.keyList.filter (fun j => !decide (j = k)) ∧
      (∀ j, s1.resident j ↔ s.resident j) ∧ s1.size = s.size ∧
      (∀ j, j ≠ k → s1.valueOf j = s.valueOf j) := by
  obtain ⟨hi, -, -⟩ := reachable_inv hs
  obtain ⟨s1, h1, -, -, -, hkl, hv, hsz⟩ := set_hit s hi k v hk
  refine ⟨s1, h1, by simp [hv k], hkl, ?_, hsz, ?_⟩
  · intro j
    rw [resident_iff_valueOf, resident_iff_valueOf, hv j]
    by_cases hj : j = k
    · subst hj
      simp only [if_true, Option.isSome_some, true_iff]
      exact (resident_iff_valueOf j).1 hk
    · simp [hj]
  · intro j hj
    simp [hv j, hj]

/-- C6 at the full cache of capacity 2 holding keys 2 and 1: `set(1, 11)`. -/
theorem C6_set_resident_key_updates_in_place_witness :
    (Reachable 2 0 (⟨2, 0, [(2, 2), (1, 1)], [(2, ⟨20, 2⟩), (1, ⟨10, 1⟩)], 3⟩ : LRUCache Nat Nat) ∧
     (⟨2, 0, [(2, 2), (1, 1)], [(2, ⟨20, 2⟩), (1, ⟨10, 1⟩)], 3⟩ : LRUCache Nat Nat).resident 1) ∧
    ∃ s1, LRUCache.set
        (⟨2, 0, [(2, 2), (1, 1)], [(2, ⟨20, 2⟩), (1, ⟨10, 1⟩)], 3⟩ : LRUCache Nat Nat) 1 11
        = some s1 ∧ s1.valueOf 1 = some 11 ∧ s1.keyList = [1, 2] ∧ s1.size = 2 :=
  have hs : Reachable 2 0
      (⟨2, 0, [(2, 2), (1, 1)], [(2, ⟨20, 2⟩), (1, ⟨10, 1⟩)], 3⟩ : LRUCache Nat Nat) :=
    ⟨[Op.set 1 10, Op.set 2 20], rfl⟩
  ⟨⟨hs, by decide⟩,
    (C6_set_resident_key_updates_in_place 2 0 _ 1 11 hs (by decide)).imp
      (fun _ h => ⟨h.1, h.2.1, h.2.2.1, h.2.2.2.2.1⟩)⟩

/-- C7: in a reachable state, `get(k)` of a resident key leaves `k` at the
front of the recency list and the other keys in the order they had before. -/
theorem C7_get_moves_key_to_front (c : Nat) (nv : V) (s : LRUCache K V) (k : K)
    (hs : Reachable c nv s) (hk : s.resident k) :
    ∃ v s1, s.get k = some (v, s1) ∧
      s1.keyList = k :: s.keyList.filter (fun j => !decide (j = k)) := by
  obtain ⟨hi, -, -⟩ := reachable_inv hs
  obtain ⟨v, s1, h1, -, -, -, -, hkl, -⟩ := get_hit s hi k hk
  exact ⟨v, s1, h1, hkl⟩

/-- C7 at the cache of capacity 3 holding keys 3, 2, 1 (front to back):
`get(1)`. -/
theorem C7_get_moves_key_to_front_witness :
    (Reachable 3 0 (⟨3, 0, [(3, 3), (2, 2), (1, 1)],
        [(3, ⟨30, 3⟩), (2, ⟨20, 2⟩), (1, ⟨10, 1⟩)], 4⟩ : LRUCache Nat Nat) ∧
     (⟨3, 0, [(3, 3), (2, 2), (1, 1)],
        [(3, ⟨30, 3⟩), (2, ⟨20, 2⟩), (1, ⟨10, 1⟩)], 4⟩ : LRUCache Nat Nat).resident 1) ∧
    ∃ v s1, (⟨3, 0, [(3, 3), (2, 2), (1, 1)],
        [(3, ⟨30, 3⟩), (2, ⟨20, 2⟩), (1, ⟨10, 1⟩)], 4⟩ : LRUCache Nat Nat).get 1 = some (v, s1) ∧
      s1.keyList = [1, 3, 2] :=
  have hs : Reachable 3 0 (⟨3, 0, [(3, 3), (2, 2), (1, 1)],
        [(3, ⟨30, 3⟩), (2, ⟨20, 2⟩), (1, ⟨10, 1⟩)], 4⟩ : LRUCache Nat Nat) :=
    ⟨[Op.set 1 10, Op.set 2 20, Op.set 3 30], rfl⟩
  ⟨⟨hs, by decide⟩, C7_get_moves_key_to_front 3 0 _ 1 hs (by decide)⟩

/-- C8: for capacity `c >= 1`, every finite sequence of `get` and `set` calls
on a fresh cache is defined and ends in a state with at most `c` entries (in
the map and in the list) and with `capacity` still `c`; one more `get` or
`set` keeps both. -/
theorem C8_entry_count_bounded_by_capacity (c : Nat) (nv : V) (ops : List (Op K V))
    (hc : 1 ≤ c) :
    ∃ s, run (LRUCache.new c nv) ops = some s ∧ s.size ≤ c ∧ s.keys.length ≤ c ∧
      s.capacity = c ∧
      (∀ k, ∃ r s1, s.get k = some (r, s1) ∧ s1.size ≤ c ∧ s1.capacity = c) ∧
      (∀ k v, ∃ s1, LRUCache.set s k v = some s1 ∧ s1.size ≤ c ∧ s1.capacity = c) := by
  obtain ⟨s, hr⟩ := run_defined ops (LRUCache.new c nv) (inv_new c nv) hc
  obtain ⟨hi, hcap, -⟩ := run_inv ops _ s (inv_new c nv) hr
  have hcap1 : s.capacity = c := hcap
  refine ⟨s, hr, ?_, ?_, hcap1, ?_, ?_⟩
  · have := hi.size_le
    unfold LRUCache.size
    omega
  · have := hi.size_le
    have := hi.size_eq
    omega
  · intro k
    obtain ⟨r, s1, hg, hi1, hc1, -⟩ := get_inv s hi k
    refine ⟨r, s1, hg, ?_, by omega⟩
    have := hi1.size_le
    unfold LRUCache.size
    omega
  · intro k v
    obtain ⟨s1, h1⟩ := set_defined s hi k v (by omega)
    obtain ⟨hi1, hc1, -⟩ := set_inv s s1 hi k v h1
    refine ⟨s1, h1, ?_, by omega⟩
    have := hi1.size_le
    unfold LRUCache.size
    omega

/-- C8 at capacity 2 with three insertions and a lookup. -/
theorem C8_entry_count_bounded_by_capacity_witness :
    1 ≤ 2 ∧ ∃ s : LRUCache Nat Nat,
      run (LRUCache.new 2 0) [Op.set 1 10, Op.set 2 20, Op.get 1, Op.set 3 30] = some s ∧
      s.size ≤ 2 ∧ s.keys.length ≤ 2 ∧ s.capacity = 2 :=
  ⟨by decide,
    (C8_entry_count_bounded_by_capacity 2 0
      [Op.set 1 10, Op.set 2 20, Op.get 1, Op.set 3 30] (by decide)).imp
      (fun _ h => ⟨h.1, h.2.1, h.2.2.1, h.2.2.2.1⟩)⟩

/-- C9: for capacity `c >= 1`, in every reachable state, `set(k, v)`
immediately followed by `get(k)` returns `v`, for every key and value. -/
theorem C9_get_after_set_returns_value (c : Nat) (nv : V) (s : LRUCache K V) (k : K) (v : V)
    (hc : 1 ≤ c) (hs : Reachable c nv s) :
    ∃ s1 s2, LRUCache.set s k v = some s1 ∧ s1.get k = some (v, s2) := by
  obtain ⟨hi, hcap, -⟩ := reachable_inv hs
  obtain ⟨s1, h1⟩ := set_defined s hi k v (by omega)
  obtain ⟨hi1, -, -⟩ := set_inv s s1 hi k v h1
  have hv : s1.valueOf k = some v := by
    by_cases hk : s.resident k
    · obtain ⟨s2, h2, -, -, -, -, hv, -⟩ := set_hit s hi k v hk
      rw [h1] at h2
      cases h2
      simp [hv k]
    · obtain ⟨s2, h2, -, -, -, -, hv⟩ := set_miss s hi k v hk (by omega)
      rw [h1] at h2
      cases h2
      simp [hv k]
  have hres : s1.resident k := by
    rw [resident_iff_valueOf, hv]; rfl
  obtain ⟨w, s2, hg, hw, -⟩ := get_hit s1 hi1 k hres
  rw [hv] at hw
  cases hw
  exact ⟨s1, s2, h1, hg⟩

/-- C9 at the full cache of capacity 2 holding keys 2 and 1, with the new key
3. -/
theorem C9_get_after_set_returns_value_witness :
    (1 ≤ 2 ∧
     Reachable 2 0 (⟨2, 0, [(2, 2), (1, 1)], [(2, ⟨20, 2⟩), (1, ⟨10, 1⟩)], 3⟩ : LRUCache Nat Nat)) ∧
    ∃ s1 s2, LRUCache.set
        (⟨2, 0, [(2, 2), (1, 1)], [(2, ⟨20, 2⟩), (1, ⟨10, 1⟩)], 3⟩ : LRUCache Nat Nat) 3 30
        = some s1 ∧ s1.get 3 = some (30, s2) :=
  have hs : Reachable 2 0
      (⟨2, 0, [(2, 2), (1, 1)], [(2, ⟨20, 2⟩), (1, ⟨10, 1⟩)], 3⟩ : LRUCache Nat Nat) :=
    ⟨[Op.set 1 10, Op.set 2 20], rfl⟩
  ⟨⟨by decide, hs⟩, C9_get_after_set_returns_value 2 0 _ 3 30 (by decide) hs⟩

/-- C10: in the state reached from a fresh cache by a sequence of calls,
`get(k)` is defined; a result different from `null_value` always means that
`k` is resident; and when no `set` call of the sequence stored a value equal
to `null_value`, the result is `null_value` exactly when `k` is not
resident. -/
theorem C10_null_value_marks_not_found (c : Nat) (nv : V) (ops : List (Op K V))
    (s : LRUCache K V) (k : K) (hr : run (LRUCache.new c nv) ops = some s) :
    ∃ r s1, s.get k = some (r, s1) ∧ (r ≠ nv → s.resident k) ∧
      ((∀ j v, Op.set j v ∈ ops → v ≠ nv) → (r = nv ↔ ¬ s.resident k)) := by
  obtain ⟨hi, -, hn⟩ := run_inv ops _ s (inv_new c nv) hr
  have hn1 : s.null_value = nv := hn
  by_cases hk : s.resident k
  · obtain ⟨v, s1, hg, hv, -⟩ := get_hit s hi k hk
    refine ⟨v, s1, hg, fun _ => hk, fun hnn => ?_⟩
    have hne : v ≠ nv := hnn k v (lastSet_mem ops k v (valueOf_lastSet c nv ops s hr k v hv))
    simp [hne, hk]
  · refine ⟨nv, s, ?_, fun h => absurd rfl h, fun _ => by simp [hk]⟩
    rw [get_miss s k hk, hn1]

/-- C10 at capacity 2 after `set(1,10); set(2,20)` with `null_value` 0, for the
key 3 that is not resident. -/
theorem C10_null_value_marks_not_found_witness :
    (run (LRUCache.new 2 0) [Op.set 1 10, Op.set 2 20]
      = some (⟨2, 0, [(2, 2), (1, 1)], [(2, ⟨20, 2⟩), (1, ⟨10, 1⟩)], 3⟩ : LRUCache Nat Nat) ∧
     (∀ j v, (Op.set j v : Op Nat Nat) ∈ [Op.set 1 10, Op.set 2 20] → v ≠ 0)) ∧
    ∃ r s1, (⟨2, 0, [(2, 2), (1, 1)], [(2, ⟨20, 2⟩), (1, ⟨10, 1⟩)], 3⟩ : LRUCache Nat Nat).get 3
        = some (r, s1) ∧
      (r ≠ 0 → (⟨2, 0, [(2, 2), (1, 1)], [(2, ⟨20, 2⟩), (1, ⟨10, 1⟩)], 3⟩ :
        LRUCache Nat Nat).resident 3) ∧
      (r = 0 ↔ ¬ (⟨2, 0, [(2, 2), (1, 1)], [(2, ⟨20, 2⟩), (1, ⟨10, 1⟩)], 3⟩ :
        LRUCache Nat Nat).resident 3) :=
  have hr : run (LRUCache.new 2 0) [Op.set 1 10, Op.set 2 20]
      = some (⟨2, 0, [(2, 2), (1, 1)], [(2, ⟨20, 2⟩), (1, ⟨10, 1⟩)], 3⟩ : LRUCache Nat Nat) := rfl
  have hnn : ∀ j v, (Op.set j v : Op Nat Nat) ∈ [Op.set 1 10, Op.set 2 20] → v ≠ 0 := by
    intro j v h
    simp at h
    rcases h with ⟨-, rfl⟩ | ⟨-, rfl⟩ <;> decide
  ⟨⟨hr, hnn⟩, (C10_null_value_marks_not_found 2 0 _ _ 3 hr).imp
    (fun _ h => h.imp (fun _ h1 => ⟨h1.1, h1.2.1, h1.2.2 hnn⟩))⟩

/-- C12: for capacity `c >= 1`, every finite sequence of `get` and `set` calls
on a fresh cache is defined and ends in a state where the recency list has no
duplicate key, the list and the map hold the same keys and have the same
size, and each map entry points at the list node of its own key; one more
`get` or `set`, the `touch` of a resident key and the eviction step all lead
to such a state again. -/
theorem C12_representation_invariant_holds (c : Nat) (nv : V) (ops : List (Op K V))
    (hc : 1 ≤ c) :
    ∃ s, run (LRUCache.new c nv) ops = some s ∧ RepInv s ∧
      (∀ k, ∃ r s1, s.get k = some (r, s1) ∧ RepInv s1) ∧
      (∀ k v, ∃ s1, LRUCache.set s k v = some s1 ∧ RepInv s1) ∧
      (∀ k, s.resident k → ∃ s1, s.touch k = some s1 ∧ RepInv s1) ∧
      (∃ s1, s.set_evict = some s1 ∧ RepInv s1) := by
  obtain ⟨s, hr⟩ := run_defined ops (LRUCache.new c nv) (inv_new c nv) hc
  obtain ⟨hi, hcap, -⟩ := run_inv ops _ s (inv_new c nv) hr
  have hcap1 : s.capacity = c := hcap
  refine ⟨s, hr, hi.repInv, ?_, ?_, ?_, ?_⟩
  · intro k
    obtain ⟨r, s1, hg, hi1, -⟩ := get_inv s hi k
    exact ⟨r, s1, hg, hi1.repInv⟩
  · intro k v
    obtain ⟨s1, h1⟩ := set_defined s hi k v (by omega)
    exact ⟨s1, h1, (set_inv s s1 hi k v h1).1.repInv⟩
  · intro k hk
    obtain ⟨s1, h1, hi1, -⟩ := touch_spec s hi k hk
    exact ⟨s1, h1, hi1.repInv⟩
  · obtain ⟨s1, h1, hi1, -⟩ := set_evict_spec s hi (by omega)
    exact ⟨s1, h1, hi1.repInv⟩

/-- C12 at capacity 2 with insertions, a hit, and an eviction. -/
theorem C12_representation_invariant_holds_witness :
    1 ≤ 2 ∧ ∃ s : LRUCache Nat Nat,
      run (LRUCache.new 2 0) [Op.set 1 10, Op.set 2 20, Op.get 1, Op.set 3 30] = some s ∧
      RepInv s :=
  ⟨by decide,
    (C12_representation_invariant_holds 2 0
      [Op.set 1 10, Op.set 2 20, Op.get 1, Op.set 3 30] (by decide)).imp
      (fun _ h => ⟨h.1, h.2.1⟩)⟩

/-- C13: for capacity `c >= 1`, after every finite sequence of `get` and `set`
calls on a fresh cache: when `cache.size() == capacity` holds, the recency
list is not empty, so `keys.back()` and `keys.pop_back()` are defined, and
the key at the back is found in the map; hence the eviction step of `set` is
always defined. -/
theorem C13_eviction_branch_is_defined (c : Nat) (nv : V) (ops : List (Op K V))
    (hc : 1 ≤ c) :
    ∃ s, run (LRUCache.new c nv) ops = some s ∧
      (s.cache.length = s.capacity →
        s.keys ≠ [] ∧
        ∃ oldest ks, list_back s.keys = some oldest ∧ list_pop_back s.keys = some ks ∧
          (map_find s.cache oldest.2).isSome = true) ∧
      (∃ s1, s.set_evict = some s1) := by
  obtain ⟨s, hr⟩ := run_defined ops (LRUCache.new c nv) (inv_new c nv) hc
  obtain ⟨hi, hcap, -⟩ := run_inv ops _ s (inv_new c nv) hr
  have hcap1 : s.capacity = c := hcap
  refine ⟨s, hr, fun hfull => evict_steps_defined s hi (by omega) hfull, ?_⟩
  obtain ⟨s1, h1, -⟩ := set_evict_spec s hi (by omega)
  exact ⟨s1, h1⟩

/-- C13 at capacity 2 after two insertions, where the cache is full. -/
theorem C13_eviction_branch_is_defined_witness :
    1 ≤ 2 ∧ ∃ s : LRUCache Nat Nat,
      run (LRUCache.new 2 0) [Op.set 1 10, Op.set 2 20] = some s ∧
      (s.cache.length = s.capacity →
        s.keys ≠ [] ∧
        ∃ oldest ks, list_back s.keys = some oldest ∧ list_pop_back s.keys = some ks ∧
          (map_find s.cache oldest.2).isSome = true) :=
  ⟨by decide,
    (C13_eviction_branch_is_defined 2 0 [Op.set 1 10, Op.set 2 20] (by decide)).imp
      (fun _ h => ⟨h.1, h.2.1⟩)⟩

/-- C14: in a cache constructed with capacity 0 the first `set(k, v)` misses
in the map, finds `cache.size() == capacity` true with size 0, and reads
`keys.back()` of the empty recency list, which is undefined; so a `set` on a
fresh cache can only be defined when the capacity is at least 1. -/
theorem C14_capacity_zero_set_reads_back_of_empty_list (nv : V) (k : K) (v : V) :
    map_find (LRUCache.new 0 nv : LRUCache K V).cache k = none ∧
    (LRUCache.new 0 nv : LRUCache K V).cache.length
      = (LRUCache.new 0 nv : LRUCache K V).capacity ∧
    list_back (LRUCache.new 0 nv : LRUCache K V).keys = none ∧
    (LRUCache.new 0 nv : LRUCache K V).set_evict = none ∧
    LRUCache.set (LRUCache.new 0 nv : LRUCache K V) k v = none ∧
    (∀ c, (∃ s1, LRUCache.set (LRUCache.new c nv : LRUCache K V) k v = some s1) → 1 ≤ c) := by
  refine ⟨rfl, rfl, rfl, ?_, ?_, ?_⟩
  · simp [LRUCache.set_evict, LRUCache.new, list_back]
  · exact set_capacity_zero _ (inv_new 0 nv) k v rfl
  · intro c hdef
    by_contra hc
    have h0 : c = 0 := by omega
    subst h0
    obtain ⟨s1, h1⟩ := hdef
    rw [set_capacity_zero _ (inv_new 0 nv) k v rfl] at h1
    cases h1

/-- C15: for capacity `c >= 1`, in a reachable state with `k` resident, after
touching `k` (by `get(k)`, or by `set(k, v)`) and then inserting at most
`c - 1` keys that are pairwise distinct and were not resident, `k` is still
resident and `get(k)` returns the value `k` had after the touch. -/
theorem C15_touched_key_keeps_value_below_capacity_insertions (c : Nat) (nv : V)
    (s : LRUCache K V) (k : K) (v : V) (news : List (K × V)) (hc : 1 ≤ c)
    (hs : Reachable c nv s) (hk : s.resident k) (hlen : news.length ≤ c - 1)
    (hnd : (news.map Prod.fst).Nodup) (hfresh : ∀ p ∈ news, ¬ s.resident p.1) :
    (∃ r s1 s2 s3 w, s.get k = some (r, s1) ∧ s1.valueOf k = some w ∧
      run s1 (setAll news) = some s2 ∧ s2.resident k ∧ s2.get k = some (w, s3)) ∧
    (∃ s1 s2 s3, LRUCache.set s k v = some s1 ∧ s1.valueOf k = some v ∧
      run s1 (setAll news) = some s2 ∧ s2.resident k ∧ s2.get k = some (v, s3)) := by
  obtain ⟨hi, hcap, -⟩ := reachable_inv hs
  have key : ∀ (t : LRUCache K V) (w : V), Inv t → t.capacity = c →
      t.keyList = k :: s.keyList.filter (fun x => !decide (x = k)) →
      (∀ x, t.resident x ↔ s.resident x) → t.valueOf k = some w →
      ∃ s2 s3, run t (setAll news) = some s2 ∧ s2.resident k ∧ s2.get k = some (w, s3) := by
    intro t w hit hct hkl hres hw
    have hfr : ∀ p ∈ news, ¬ t.resident p.1 := fun p hp h1 => hfresh p hp ((hres _).1 h1)
    obtain ⟨s2, h2, hi2, hk2, hv2, -⟩ :=
      run_setAll_after_front news t k _ hit (by omega) hkl (by omega) hnd hfr
    obtain ⟨w1, s3, hg, hw1, -⟩ := get_hit s2 hi2 k hk2
    rw [hv2, hw] at hw1
    cases hw1
    exact ⟨s2, s3, h2, hk2, hg⟩
  constructor
  · obtain ⟨r, s1, hg, hr, hi1, hc1, -, hkl1, hv1, -⟩ := get_hit s hi k hk
    have hres : ∀ x, s1.resident x ↔ s.resident x := by
      intro x
      rw [resident_iff_valueOf, resident_iff_valueOf, hv1 x]
    have hw : s1.valueOf k = some r := by rw [hv1 k, hr]
    obtain ⟨s2, s3, h2, hk2, hg2⟩ := key s1 r hi1 (by omega) hkl1 hres hw
    exact ⟨r, s1, s2, s3, r, hg, hw, h2, hk2, hg2⟩
  · obtain ⟨s1, h1, hi1, hc1, -, hkl1, hv1, -⟩ := set_hit s hi k v hk
    have hres : ∀ x, s1.resident x ↔ s.resident x := by
      intro x
      rw [resident_iff_valueOf, resident_iff_valueOf, hv1 x]
      by_cases hx : x = k
      · subst hx
        simp only [if_true, Option.isSome_some, true_iff]
        exact (resident_iff_valueOf x).1 hk
      · simp [hx]
    have hw : s1.valueOf k = some v := by simp [hv1 k]
    obtain ⟨s2, s3, h2, hk2, hg2⟩ := key s1 v hi1 (by omega) hkl1 hres hw
    exact ⟨s1, s2, s3, h1, hw, h2, hk2, hg2⟩

/-- C15 at capacity 3 with keys 3, 2, 1 resident: key 1 touched, then the 2
new keys 4 and 5 inserted. -/
theorem C15_touched_key_keeps_value_below_capacity_insertions_witness :
    (1 ≤ 3 ∧
     Reachable 3 0 (⟨3, 0, [(3, 3), (2, 2), (1, 1)],
        [(3, ⟨30, 3⟩), (2, ⟨20, 2⟩), (1, ⟨10, 1⟩)], 4⟩ : LRUCache Nat Nat) ∧
     (⟨3, 0, [(3, 3), (2, 2), (1, 1)],
        [(3, ⟨30, 3⟩), (2, ⟨20, 2⟩), (1, ⟨10, 1⟩)], 4⟩ : LRUCache Nat Nat).resident 1 ∧
     ([(4, 40), (5, 50)] : List (Nat × Nat)).length ≤ 3 - 1 ∧
     (([(4, 40), (5, 50)] : List (Nat × Nat)).map Prod.fst).Nodup ∧
     (∀ p ∈ ([(4, 40), (5, 50)] : List (Nat × Nat)),
        ¬ (⟨3, 0, [(3, 3), (2, 2), (1, 1)],
          [(3, ⟨30, 3⟩), (2, ⟨20, 2⟩), (1, ⟨10, 1⟩)], 4⟩ : LRUCache Nat Nat).resident p.1)) ∧
    ((∃ r s1 s2 s3 w, (⟨3, 0, [(3, 3), (2, 2), (1, 1)],
          [(3, ⟨30, 3⟩), (2, ⟨20, 2⟩), (1, ⟨10, 1⟩)], 4⟩ : LRUCache Nat Nat).get 1 = some (r, s1) ∧
        s1.valueOf 1 = some w ∧ run s1 (setAll [(4, 40), (5, 50)]) = some s2 ∧
        s2.resident 1 ∧ s2.get 1 = some (w, s3)) ∧
     (∃ s1 s2 s3, LRUCache.set (⟨3, 0, [(3, 3), (2, 2), (1, 1)],
          [(3, ⟨30, 3⟩), (2, ⟨20, 2⟩), (1, ⟨10, 1⟩)], 4⟩ : LRUCache Nat Nat) 1 11 = some s1 ∧
        s1.valueOf 1 = some 11 ∧ run s1 (setAll [(4, 40), (5, 50)]) = some s2 ∧
        s2.resident 1 ∧ s2.get 1 = some (11, s3))) :=
  have hs : Reachable 3 0 (⟨3, 0, [(3, 3), (2, 2), (1, 1)],
        [(3, ⟨30, 3⟩), (2, ⟨20, 2⟩), (1, ⟨10, 1⟩)], 4⟩ : LRUCache Nat Nat) :=
    ⟨[Op.set 1 10, Op.set 2 20, Op.set 3 30], rfl⟩
  ⟨⟨by decide, hs, by decide, by decide, by decide, by decide⟩,
    C15_touched_key_keeps_value_below_capacity_insertions 3 0 _ 1 11 [(4, 40), (5, 50)]
      (by decide) hs (by decide) (by decide) (by decide) (by decide)⟩

/-- C16: in a reachable state `get(k)` is defined and leaves the contents of
the cache as they were: the same keys are resident, each with the same value,
and the entry count is the same; when `k` is not resident the whole state,
the recency list included, is unchanged. -/
theorem C16_get_keeps_contents (c : Nat) (nv : V) (s : LRUCache K V) (k : K)
    (hs : Reachable c nv s) :
    ∃ r s1, s.get k = some (r, s1) ∧ (∀ j, s1.resident j ↔ s.resident j) ∧
      (∀ j, s1.valueOf j = s.valueOf j) ∧ s1.size = s.size ∧
      (¬ s.resident k → s1 = s ∧ s1.keyList = s.keyList) := by
  obtain ⟨hi, -, -⟩ := reachable_inv hs
  by_cases hk : s.resident k
  · obtain ⟨r, s1, hg, -, -, -, -, -, hv1, hsz⟩ := get_hit s hi k hk
    refine ⟨r, s1, hg, ?_, hv1, hsz, fun h => absurd hk h⟩
    intro j
    rw [resident_iff_valueOf, resident_iff_valueOf, hv1 j]
  · exact ⟨s.null_value, s, get_miss s k hk, fun _ => Iff.rfl, fun _ => rfl, rfl,
      fun _ => ⟨rfl, rfl⟩⟩

/-- C16 at the cache of capacity 2 holding keys 2 and 1, for the key 3 that is
not resident. -/
theorem C16_get_keeps_contents_witness :
    Reachable 2 0 (⟨2, 0, [(2, 2), (1, 1)], [(2, ⟨20, 2⟩), (1, ⟨10, 1⟩)], 3⟩ : LRUCache Nat Nat) ∧
    ∃ r s1, (⟨2, 0, [(2, 2), (1, 1)], [(2, ⟨20, 2⟩), (1, ⟨10, 1⟩)], 3⟩ : LRUCache Nat Nat).get 3
        = some (r, s1) ∧
      s1 = (⟨2, 0, [(2, 2), (1, 1)], [(2, ⟨20, 2⟩), (1, ⟨10, 1⟩)], 3⟩ : LRUCache Nat Nat) :=
  have hs : Reachable 2 0
      (⟨2, 0, [(2, 2), (1, 1)], [(2, ⟨20, 2⟩), (1, ⟨10, 1⟩)], 3⟩ : LRUCache Nat Nat) :=
    ⟨[Op.set 1 10, Op.set 2 20], rfl⟩
  ⟨hs, (C16_get_keeps_contents 2 0 _ 3 hs).imp
    (fun _ h => h.imp (fun _ h1 => ⟨h1.1, (h1.2.2.2.2 (by decide)).1⟩))⟩

end Claims

end LRU
